import Mathlib

/-!
Verification of the dense-SVD kernel (`svd.cpp`): Householder bidiagonalization
with implicit-shift QR diagonalization (`svd`), sorting of the decomposition
triad by decreasing singular value (`svd_sort` / `sortvector` / `cmp_iv`), and
pseudo-inverse construction (`svd_invs`).

Modelling conventions:
* `double` is modelled by `ℚ` (exact arithmetic; `x / 0 = 0` in `ℚ`).
* matrices `double**` become total functions `ℕ → ℕ → ℚ` addressed as
  `[row] [column]`, vectors become `ℕ → ℚ`; every write in the C code becomes
  a functional update, so out-of-range entries are simply never touched.
* `sqrt` and `hypot` from `libm` are opaque parameters (`FloatOps`): the
  theorems below hold for every implementation of those two functions.
* `qsort` is modelled by its C-standard contract: the resulting permutation of
  `0..n-1` is any permutation that orders the array according to the
  comparator `cmp_iv`; the relative order of elements comparing equal is
  unspecified (`IsSortPerm`).
-/

/-- A vector of doubles (`double*`). -/
abbrev Vec := ℕ → ℚ

/-- A matrix of doubles (`double**`), addressed as `[row] [column]`. -/
abbrev Mat := ℕ → ℕ → ℚ

/-- Write `x` into entry `i` of a vector. -/
def updV (v : Vec) (i : ℕ) (x : ℚ) : Vec := fun j => if j = i then x else v j

/-- Write `x` into entry `[r][c]` of a matrix. -/
def updM (M : Mat) (r c : ℕ) (x : ℚ) : Mat :=
  fun i j => if i = r ∧ j = c then x else M i j

/-- Index list of the C loop `for (x = a; x < b; x++)`. -/
def rng (a b : ℕ) : List ℕ := List.range' a (b - a)

/-- Left-to-right accumulation `acc += f k` over a loop, starting from `0`
(the C idiom `s = 0.0; for (...) s += ...;`). -/
def sumL (L : List ℕ) (f : ℕ → ℚ) : ℚ := L.foldl (fun acc k => acc + f k) 0

/-- `#define SVD_NMAX 40` — iteration cap of the QR sweep loop. -/
def SVD_NMAX : ℕ := 40

/-- `#define SVD_EPS 4.0e-15` — relative tolerance floor. -/
def SVD_EPS : ℚ := 4.0e-15

/-- C `copysign(x, y)`: magnitude of `x` with the sign of `y`
(`y = 0` counts as positive, like the double `+0.0`). -/
def copysign (x y : ℚ) : ℚ := if y < 0 then -|x| else |x|

/-- The two `libm` routines used by `svd` whose values the embedding keeps
abstract; all control-flow theorems hold for every choice of them. -/
structure FloatOps where
  sqrt : ℚ → ℚ
  hypot : ℚ → ℚ → ℚ

/-- The `qsort` comparator `cmp_iv`: descending order of the pointed-to
values, equal values compare equal. -/
def cmp_iv (v1 v2 : ℚ) : ℤ :=
  if v1 > v2 then -1 else if v1 < v2 then 1 else 0

/-- Contract of `sortvector n w pos` (a `qsort` with comparator `cmp_iv` over
the indexed values): `pos` restricted to `0..n-1` is a permutation of
`0..n-1` ordering `w` according to the comparator.  The C standard leaves the
relative order of elements comparing equal unspecified, so this is a
relation, not a function. -/
def IsSortPerm (n : ℕ) (w : Vec) (p : ℕ → ℕ) : Prop :=
  (∀ i, i < n → p i < n) ∧
  (∀ i, i < n → ∀ j, j < n → p i = p j → i = j) ∧
  (∀ j, j < n → ∀ i, i ≤ j → cmp_iv (w (p i)) (w (p j)) ≤ 0)

/-- The stability property the spec ascribes to the sorter: positions `a < b`
holding equal values carry original indices in increasing order. -/
def StableOnTies (n : ℕ) (w : Vec) (p : ℕ → ℕ) : Prop :=
  ∀ b, b < n → ∀ a, a < b → w (p a) = w (p b) → p a < p b

instance (n : ℕ) (w : Vec) (p : ℕ → ℕ) : Decidable (IsSortPerm n w p) := by
  unfold IsSortPerm
  infer_instance

instance (n : ℕ) (w : Vec) (p : ℕ → ℕ) : Decidable (StableOnTies n w p) := by
  unfold StableOnTies
  infer_instance

/-- Insert index `i` into an index list sorted by descending `w`-value,
after all entries whose value is `≥ w i` (stable insertion). -/
def insertIdx (w : Vec) (i : ℕ) : List ℕ → List ℕ
  | [] => [i]
  | j :: t => if w j < w i then i :: j :: t else j :: insertIdx w i t

/-- The stable descending sort of the indices `0..n-1` by `w`-value. -/
def stableDescIdx (w : Vec) (n : ℕ) : List ℕ :=
  (List.range n).foldl (fun L i => insertIdx w i L) []

/-- The permutation function extracted from `stableDescIdx`. -/
def stableDescPerm (w : Vec) (n : ℕ) : ℕ → ℕ :=
  fun i => (stableDescIdx w n).getD i 0

/-- Ordering invariant of the stable descending index sort: strictly larger
value first, ties in increasing index order. -/
def descR (w : Vec) (a b : ℕ) : Prop := w b < w a ∨ (w a = w b ∧ a < b)

/-- All-ties singular-value vector used to exhibit the missing stability
guarantee of `qsort`. -/
def cexW4 : Vec := fun _ => 5

/-- The identity permutation. -/
def idPerm : ℕ → ℕ := fun i => i

/-- 1×2 matrix `[10, 20]` whose two columns carry tied singular values. -/
def cexA8 : Mat := fun j i =>
  if j = 0 ∧ i = 0 then 10 else if j = 0 ∧ i = 1 then 20 else 0

/-- Tied, already-sorted singular values `[1, 1]`. -/
def cexW8 : Vec := fun i => if i < 2 then 1 else 0

/-- Strictly descending, already-thresholded singular values `[2, 1]`. -/
def smpW8 : Vec := fun i => if i = 0 then 2 else if i = 1 then 1 else 0

/-- `svd_sort(A, n, m, w, V)`.  The function first snapshots `w`, `A`, `V`
(`wold`, `aold`, `vold`), obtains from `sortvector` a permutation `pos` of
`0..n-1` (passed here as the parameter `pos`, constrained by `IsSortPerm` in
the theorems), sets `wmax = w[pos[0]]`, and then writes, for `0 ≤ i < n`:
`w[i] = wold[pos[i]]` (zeroed when `w[i]/wmax < SVD_EPS`),
`A[j][i] = aold[j][pos[i]]` for `j < m`, and
`V[j][i] = vold[j][pos[i]]` for `j < n`. -/
def svd_sort (A : Mat) (n m : ℕ) (w : Vec) (V : Mat) (pos : ℕ → ℕ) :
    Mat × Vec × Mat :=
  let wmax := w (pos 0)
  let w' : Vec := fun i =>
    if i < n then
      if w (pos i) / wmax < SVD_EPS then 0 else w (pos i)
    else w i
  let A' : Mat := fun j i => if j < m ∧ i < n then A j (pos i) else A j i
  let V' : Mat := fun j i => if j < n ∧ i < n then V j (pos i) else V j i
  (A', w', V')

/-- The scratch matrix of `svd_invs`: a copy of `V` whose columns
`i < min(n,m)` are scaled to `vtemp[j][i] = V[j][i] / w[i]`
(`for (i = 0; i < mnmin; ++i) for (j = 0; j < n; ++j) ...`). -/
def invs_vtemp (n m : ℕ) (w : Vec) (V : Mat) : Mat :=
  (rng 0 (min n m)).foldl (fun vt i =>
    (rng 0 n).foldl (fun vt j => updM vt j i (V j i / w i)) vt) V

/-- `svd_invs(AT, A, n, m, w, V)`: scales the first `min(n,m)` columns of a
scratch copy of `V` by `1/w[i]` and accumulates `AT[i][j] = Σ_k
vtemp[i][k]*A[j][k]`.  The full post-state `(AT, A, w, V)` is returned so the
absence of side effects on `A`, `w`, `V` is part of the embedding. -/
def svd_invs (AT A : Mat) (n m : ℕ) (w : Vec) (V : Mat) :
    Mat × Mat × Vec × Mat :=
  let mnmin := min n m
  let vtemp := invs_vtemp n m w V
  let AT :=
    (rng 0 n).foldl (fun AT i =>
      (rng 0 m).foldl (fun AT j =>
        (rng 0 mnmin).foldl
          (fun AT k => updM AT i j (AT i j + vtemp i k * A j k))
          (updM AT i j 0)) AT) AT
  (AT, A, w, V)

/-! ### The decomposer `svd(A, n, m, w, V)` -/

/-- Carry of the Householder-reduction loop of `svd` (phase 1): the matrix,
the two output vectors, and the scalars `g`, `scale`, `tst1` that survive
from one loop iteration to the next. -/
structure H1St where
  A : Mat
  w : Vec
  rv1 : Vec
  g : ℚ
  scale : ℚ
  tst1 : ℚ

/-- Column Householder step of iteration `i` of phase 1 of `svd`
(`if (i < m) { ... }`, lines 177–202): returns the updated `A` together with
the values of `g` and `scale` after the block. -/
def house_col (ops : FloatOps) (n m i : ℕ) (A : Mat) : Mat × ℚ × ℚ :=
  if i < m then
    let scale := sumL (rng i m) fun k => |A k i|
    if scale = 0 then (A, 0, scale)
    else
      let p := (rng i m).foldl
        (fun p k => let a := p.1 k i / scale; (updM p.1 k i a, p.2 + a * a))
        (A, (0 : ℚ))
      let A := p.1
      let s := p.2
      let f := A i i
      let g := -copysign (ops.sqrt s) f
      let h := f * g - s
      let A := updM A i i (f - g)
      let A :=
        if i < n - 1 then
          (rng (i + 1) n).foldl (fun A j =>
            let s2 := sumL (rng i m) fun k => A k i * A k j
            let f2 := s2 / h
            (rng i m).foldl (fun A k => updM A k j (A k j + f2 * A k i)) A) A
        else A
      let A := (rng i m).foldl (fun A k => updM A k i (A k i * scale)) A
      (A, g, scale)
  else (A, 0, 0)

/-- Row Householder step of iteration `i` of phase 1 of `svd`
(`if (i < m && i < n - 1) { ... }`, lines 207–231): returns the updated `A`
and `rv1` together with the values of `g` and `scale` after the block. -/
def house_row (ops : FloatOps) (n m i : ℕ) (A : Mat) (rv1 : Vec) :
    Mat × Vec × ℚ × ℚ :=
  let l := i + 1
  if i < m ∧ i < n - 1 then
    let scale := sumL (rng l n) fun k => |A i k|
    if scale = 0 then (A, rv1, 0, scale)
    else
      let p := (rng l n).foldl
        (fun p k => let a := p.1 i k / scale; (updM p.1 i k a, p.2 + a * a))
        (A, (0 : ℚ))
      let A := p.1
      let s := p.2
      let f := A i l
      let g := -copysign (ops.sqrt s) f
      let h := f * g - s
      let A := updM A i l (f - g)
      let rv1 := (rng l n).foldl (fun r k => updV r k (A i k / h)) rv1
      let A := (rng l m).foldl (fun A j =>
          let s2 := sumL (rng l n) fun k => A j k * A i k
          (rng l n).foldl (fun A k => updM A j k (A j k + s2 * rv1 k)) A) A
      let A := (rng l n).foldl (fun A k => updM A i k (A i k * scale)) A
      (A, rv1, g, scale)
  else (A, rv1, 0, 0)

/-- One iteration (index `i`) of phase 1 of `svd`: `rv1[i] = scale * g` with
the carried scalars, the column block, `w[i] = scale * g`, the row block, and
the update of the convergence scale `tst1`. -/
def h1step (ops : FloatOps) (n m : ℕ) (st : H1St) (i : ℕ) : H1St :=
  let rv1 := updV st.rv1 i (st.scale * st.g)
  let hc := house_col ops n m i st.A
  let w := updV st.w i (hc.2.2 * hc.2.1)
  let hr := house_row ops n m i hc.1 rv1
  let tmp := |w i| + |hr.2.1 i|
  { A := hr.1, w := w, rv1 := hr.2.1, g := hr.2.2.1, scale := hr.2.2.2,
    tst1 := if st.tst1 > tmp then st.tst1 else tmp }

/-- Phase 1 of `svd`: Householder reduction to bidiagonal form.  `w` is the
caller's output buffer and `rv1` is the scratch vector `malloc`ed by `svd`
(its initial contents are arbitrary: every entry below `n` is written before
it is read, which the theorems below reflect by quantifying over `rv1`). -/
def phase1 (ops : FloatOps) (n m : ℕ) (A : Mat) (w rv1 : Vec) : H1St :=
  (List.range n).foldl (h1step ops n m) ⟨A, w, rv1, 0, 0, 0⟩

/-- One iteration (index `i`, counting down) of phase 2 of `svd`
(accumulation of the right-hand transformations into `V`); the carried state
is `(V, g, l)`. -/
def p2step (n : ℕ) (A : Mat) (rv1 : Vec) (s : Mat × ℚ × ℕ) (i : ℕ) :
    Mat × ℚ × ℕ :=
  let V := s.1
  let g := s.2.1
  let l := s.2.2
  let V :=
    if i < n - 1 then
      let V :=
        if g ≠ 0 then
          let V := (rng l n).foldl
            (fun V j => updM V j i ((A i j / A i l) / g)) V
          (rng l n).foldl (fun V j =>
            let s2 := sumL (rng l n) fun k => A i k * V k j
            (rng l n).foldl (fun V k => updM V k j (V k j + s2 * V k i)) V) V
        else V
      (rng l n).foldl (fun V j => updM (updM V i j 0) j i 0) V
    else V
  (updM V i i 1, rv1 i, i)

/-- Phase 2 of `svd`: accumulation of the right-hand transformations.
`g` and `l` enter with their values at the end of phase 1 (`l = n` after the
last phase-1 iteration; neither is read before being overwritten when the
loop body runs). -/
def phase2 (n : ℕ) (A : Mat) (rv1 : Vec) (V : Mat) (g : ℚ) (l : ℕ) : Mat :=
  ((List.range n).reverse.foldl (p2step n A rv1) (V, g, l)).1

/-- One iteration (index `i`, counting down) of phase 3 of `svd`
(accumulation of the left-hand transformations into `A`). -/
def p3step (n m : ℕ) (w : Vec) (A : Mat) (i : ℕ) : Mat :=
  let l := i + 1
  let g := w i
  let A :=
    if i ≠ n - 1 then (rng l n).foldl (fun A j => updM A i j 0) A else A
  let A :=
    if g ≠ 0 then
      let A := (rng l n).foldl (fun A j =>
          let s2 := sumL (rng l m) fun k => A k i * A k j
          let f := (s2 / A i i) / g
          (rng i m).foldl (fun A k => updM A k j (A k j + f * A k i)) A) A
      (rng i m).foldl (fun A j => updM A j i (A j i / g)) A
    else (rng i m).foldl (fun A j => updM A j i 0) A
  updM A i i (A i i + 1)

/-- Phase 3 of `svd`: accumulation of the left-hand transformations
(`for (i = (m < n) ? m - 1 : n - 1; i >= 0; i--)`). -/
def phase3 (n m : ℕ) (w : Vec) (A : Mat) : Mat :=
  ((List.range (min m n)).reverse).foldl (p3step n m w) A

/-- State of the diagonalization phase of `svd`. -/
structure DState where
  A : Mat
  w : Vec
  V : Mat
  rv1 : Vec

/-- The errors `svd` can signal in a total embedding: the
`no convergence in 40 iterations` fatal error, and the out-of-bounds read
`w[l-1]` with `l == 0` that the splitting search would perform if it fell
past the first index (the source comments it is unreachable because
`rv1[0]` is always zero). -/
inductive SvdErr where
  | noConvergence
  | indexOob
deriving DecidableEq, Repr

/-- Outcome of one iteration of the `while (1)` sweep loop for target
index `k`. -/
inductive IterOut where
  | next (st : DState)
  | conv (st : DState)
  | oob

/-- The splitting search (`for (l = k; l >= 0; l--)`, lines 342–357):
returns `some (l, docancellation)` when one of the two negligibility tests
breaks the loop at index `l`, and `none` when, at `l = 0`, the first test
fails and the loop would read `w[l - 1]` out of bounds. -/
def splitSearch (tst1 : ℚ) (rv1 w : Vec) : ℕ → Option (ℕ × Bool)
  | 0 => if |rv1 0| + tst1 = tst1 then some (0, false) else none
  | l' + 1 =>
    if |rv1 (l' + 1)| + tst1 = tst1 then some (l' + 1, false)
    else if |w l'| + tst1 = tst1 then some (l' + 1, true)
    else splitSearch tst1 rv1 w l'

/-- The cancellation sweep (`if (docancellation) { ... }`, lines 361–382)
over the index list `l..k`, carrying the rotation parameters `c`, `s`;
`l1 = l - 1`. -/
def cancelGo (ops : FloatOps) (m : ℕ) (tst1 : ℚ) (l1 : ℕ) :
    List ℕ → DState → ℚ → ℚ → DState
  | [], st, _, _ => st
  | i :: rest, st, c, s =>
    let f := s * st.rv1 i
    let rv1 := updV st.rv1 i (c * st.rv1 i)
    if |f| + tst1 = tst1 then { st with rv1 := rv1 }
    else
      let g := st.w i
      let h := ops.hypot f g
      let w := updV st.w i h
      let c := g / h
      let s := -f / h
      let A := (rng 0 m).foldl (fun A j =>
          let y := A j l1
          let z := A j i
          updM (updM A j l1 (y * c + z * s)) j i (z * c - y * s)) st.A
      cancelGo ops m tst1 l1 rest { A := A, w := w, V := st.V, rv1 := rv1 } c s

/-- The QR transformation chain (`for (i1 = l; i1 < k; i1++)`, lines
405–442), carrying `c`, `s`, `f`, `x` across iterations; returns the updated
state together with the final `f` and `x`. -/
def qrGo (ops : FloatOps) (n m : ℕ) :
    List ℕ → DState → ℚ → ℚ → ℚ → ℚ → DState × ℚ × ℚ
  | [], st, _, _, f, x => (st, f, x)
  | i1 :: rest, st, c, s, f, x =>
    let i := i1 + 1
    let g := st.rv1 i
    let y := st.w i
    let h := s * g
    let g := c * g
    let z := ops.hypot f h
    let rv1 := updV st.rv1 i1 z
    let c := f / z
    let s := h / z
    let f2 := x * c + g * s
    let g2 := g * c - x * s
    let h2 := y * s
    let y2 := y * c
    let V := (rng 0 n).foldl (fun V j =>
        let xx := V j i1
        let zz := V j i
        updM (updM V j i1 (xx * c + zz * s)) j i (zz * c - xx * s)) st.V
    let z2 := ops.hypot f2 h2
    let w := updV st.w i1 z2
    let c2 := if z2 ≠ 0 then f2 / z2 else c
    let s2 := if z2 ≠ 0 then h2 / z2 else s
    let f3 := c2 * g2 + s2 * y2
    let x2 := c2 * y2 - s2 * g2
    let A := (rng 0 m).foldl (fun A j =>
        let yy := A j i1
        let zz := A j i
        updM (updM A j i1 (yy * c2 + zz * s2)) j i (zz * c2 - yy * s2)) st.A
    qrGo ops n m rest ⟨A, w, V, rv1⟩ c2 s2 f3 x2

/-- The `l != k` branch of the sweep iteration (lines 387–445): shift from
the bottom 2×2 minor and the implicit-shift QR transformation, followed by
`rv1[l] = 0; rv1[k] = f; w[k] = x`. -/
def qrStep (ops : FloatOps) (n m : ℕ) (k l : ℕ) (st : DState) : DState :=
  let z := st.w k
  let k1 := k - 1
  let x := st.w l
  let y := st.w k1
  let g := st.rv1 k1
  let h := st.rv1 k
  let f := 0.5 * (((g + z) / h) * ((g - z) / y) + y / h - h / y)
  let g2 := ops.hypot f 1
  let f2 := x - (z / x) * z + (h / x) * (y / (f + copysign g2 f) - h)
  let q := qrGo ops n m (rng l k) st 1 1 f2 x
  let st2 := q.1
  { st2 with
    rv1 := updV (updV st2.rv1 l 0) k q.2.1
    w := updV st2.w k q.2.2 }

/-- The `l == k` branch of the sweep iteration (lines 446–456): the
converged value `w[k]` is made non-negative, flipping the sign of column
`k` of `V` along with it if needed. -/
def convStep (n k : ℕ) (st : DState) : DState :=
  if st.w k < 0 then
    { st with
      w := updV st.w k (-st.w k)
      V := (rng 0 n).foldl (fun V j => updM V j k (-V j k)) st.V }
  else st

/-- One iteration of the `while (1)` loop for target index `k` (after the
iteration-count check): splitting search, optional cancellation sweep,
convergence test, and either the implicit-shift QR transformation
(`.next`) or the sign correction of the converged value (`.conv`). -/
def qrIter (ops : FloatOps) (n m : ℕ) (tst1 : ℚ) (k : ℕ) (st : DState) :
    IterOut :=
  match splitSearch tst1 st.rv1 st.w k with
  | none => .oob
  | some (l, dc) =>
    let st := if dc then cancelGo ops m tst1 (l - 1) (rng l (k + 1)) st 0 1
              else st
    if l ≠ k then .next (qrStep ops n m k l st)
    else .conv (convStep n k st)

/-- The `while (1)` loop for target index `k` with the iteration counter:
`fuel` is the number of iterations still allowed (`SVD_NMAX` at entry);
when it reaches `0`, `its > SVD_NMAX` holds and `svd` quits with the
non-convergence error. -/
def diagK (ops : FloatOps) (n m : ℕ) (tst1 : ℚ) (k : ℕ) :
    ℕ → DState → Except SvdErr DState
  | 0, _ => .error .noConvergence
  | fuel + 1, st =>
    match qrIter ops n m tst1 k st with
    | .oob => .error .indexOob
    | .conv st' => .ok st'
    | .next st' => diagK ops n m tst1 k fuel st'

/-- The outer diagonalization loop over a list of target indices
(`for (k = n - 1; k >= 0; k--)` takes `ks = (range n).reverse`). -/
def diagDown (ops : FloatOps) (n m : ℕ) (tst1 : ℚ) (ks : List ℕ)
    (st : DState) : Except SvdErr DState :=
  ks.foldlM (fun s k => diagK ops n m tst1 k SVD_NMAX s) st

/-- Phases 1–3 of `svd`: the convergence scale `tst1` and the state
entering the diagonalization phase. -/
def preDiag (ops : FloatOps) (n m : ℕ) (A V : Mat) (w rv1 : Vec) :
    ℚ × DState :=
  let h1 := phase1 ops n m A w rv1
  let V2 := phase2 n h1.A h1.rv1 V h1.g n
  let A3 := phase3 n m h1.w h1.A
  (h1.tst1, ⟨A3, h1.w, V2, h1.rv1⟩)

/-- `svd(A, n, m, w, V)`: Householder bidiagonalization, accumulation of the
transformations, and diagonalization of the bidiagonal form.  `w` and `V`
are the caller's output buffers and `rv1` the uninitialized scratch vector;
the result is the final state, or the error the C code reports by
`quit` (non-convergence), or the out-of-bounds marker for the unreachable
`w[l-1]` read. -/
def svd (ops : FloatOps) (n m : ℕ) (A V : Mat) (w rv1 : Vec) :
    Except SvdErr DState :=
  let p := preDiag ops n m A V w rv1
  diagDown ops n m p.1 ((List.range n).reverse) p.2

/-- `runsOver ... st j = true` iff `j` consecutive sweep iterations starting
from `st` all take the QR-transformation branch (no convergence, no
out-of-bounds): the sweep loop for `k` "runs over" the cap when this holds
with `j = SVD_NMAX`. -/
def runsOver (ops : FloatOps) (n m : ℕ) (tst1 : ℚ) (k : ℕ) :
    DState → ℕ → Bool
  | _, 0 => true
  | st, j + 1 =>
    match qrIter ops n m tst1 k st with
    | .next st' => runsOver ops n m tst1 k st' j
    | _ => false

/-- `convWithin ... st j = true` iff within `j` sweep iterations starting
from `st` the block collapses (`l == k`) and the value converges. -/
def convWithin (ops : FloatOps) (n m : ℕ) (tst1 : ℚ) (k : ℕ) :
    DState → ℕ → Bool
  | _, 0 => false
  | st, j + 1 =>
    match qrIter ops n m tst1 k st with
    | .conv _ => true
    | .next st' => convWithin ops n m tst1 k st' j
    | .oob => false

/-! ### Sample inputs used by the witnesses -/

/-- Sample `U`-matrix (1×2): row `[3, 7]`. -/
def smpA : Mat := fun j i =>
  if j = 0 ∧ i = 0 then 3 else if j = 0 ∧ i = 1 then 7 else 0

/-- Sample singular-value vector `[1, 2]`. -/
def smpW : Vec := fun i => if i = 0 then 1 else if i = 1 then 2 else 0

/-- Sample singular-value vector `[1, 10^20]` whose small entry falls below
the relative tolerance floor after sorting. -/
def smpW3 : Vec := fun i => if i = 0 then 1 else if i = 1 then 10 ^ 20 else 0

/-- Sample `V`-matrix: the 2×2 identity. -/
def smpV : Mat := fun j i => if j = i then 1 else 0

/-- The transposition of indices `0` and `1`. -/
def smpSwap : ℕ → ℕ := fun i => if i = 0 then 1 else if i = 1 then 0 else i

/-- The all-zero vector. -/
def zeroV : Vec := fun _ => 0

/-- The all-zero matrix. -/
def zeroM : Mat := fun _ _ => 0

/-- A pathological instantiation of the two `libm` routines (the embedding
admits any function for them): `sqrt` is the identity and `hypot` is a
finite lookup tuned so that the QR sweep for `k = 1` on `smpA5` never
converges. -/
def ops2 : FloatOps where
  sqrt := fun x => x
  hypot := fun x y =>
    if x = 0 ∧ y = 1 then 4 / 5
    else if x = 5 / 4 ∧ y = 1 then 3 / 4
    else 1

/-- The 1×2 input matrix `[[-1, 1]]` driving the non-convergence witness. -/
def smpA5 : Mat := fun j i =>
  if j = 0 ∧ i = 0 then -1 else if j = 0 ∧ i = 1 then 1 else 0

/-- The 1×1 input matrix `[[-1]]`. -/
def smpA9 : Mat := fun j i => if j = 0 ∧ i = 0 then -1 else 0

/-- A diagonalization state with `w ≡ -1` and `rv1 ≡ 0`: the splitting
search returns `l = 0` immediately and the converged value is negative. -/
def smpSt7 : DState := ⟨zeroM, fun _ => -1, zeroM, zeroV⟩

/-- Projection of an `Except` result onto its success state (all-zero state
on error). -/
def getOk (e : Except SvdErr DState) : DState :=
  match e with
  | .ok st => st
  | .error _ => ⟨zeroM, zeroV, zeroM, zeroV⟩

/-! ### Helper lemmas -/

theorem updV_self (v : Vec) (i : ℕ) (x : ℚ) : updV v i x i = x := by
  simp [updV]

theorem updV_ne (v : Vec) (i : ℕ) (x : ℚ) {j : ℕ} (h : j ≠ i) :
    updV v i x j = v j := by
  simp [updV, h]

theorem updM_self (M : Mat) (r c : ℕ) (x : ℚ) : updM M r c x r c = x := by
  simp [updM]

theorem updM_ne (M : Mat) (r c : ℕ) (x : ℚ) {i j : ℕ}
    (h : ¬(i = r ∧ j = c)) : updM M r c x i j = M i j := by
  simp only [updM, if_neg h]

theorem mem_rng {x a b : ℕ} : x ∈ rng a b ↔ a ≤ x ∧ x < b := by
  simp only [rng, List.mem_range'_1]
  omega

theorem foldl_pres {α β : Type _} {P : α → Prop} {f : α → β → α}
    {L : List β} (h : ∀ a b, b ∈ L → P a → P (f a b)) :
    ∀ {s : α}, P s → P (L.foldl f s) := by
  induction L with
  | nil => intro s hs; exact hs
  | cons b t ih =>
    intro s hs
    exact ih (fun a b' hb' => h a b' (List.mem_cons_of_mem _ hb'))
      (h s b (List.mem_cons_self _ _) hs)

theorem cmp_iv_nonpos {a b : ℚ} : cmp_iv a b ≤ 0 ↔ b ≤ a := by
  unfold cmp_iv
  split_ifs with h1 h2
  · simp only [iff_true_intro (le_of_lt h1)]
    norm_num
  · simp only [iff_false_intro (not_le.2 h2)]
    norm_num
  · have hab : a = b := le_antisymm (not_lt.1 h1) (not_lt.1 h2)
    simp [hab]

theorem SVD_EPS_pos : (0 : ℚ) < SVD_EPS := by norm_num [SVD_EPS]

/-- Descending order of the permuted values, extracted from the comparator
form of the `qsort` contract. -/
theorem isSortPerm_desc {n : ℕ} {w : Vec} {p : ℕ → ℕ}
    (hp : IsSortPerm n w p) :
    ∀ i j, i ≤ j → j < n → w (p j) ≤ w (p i) := fun i j hij hj =>
  cmp_iv_nonpos.1 (hp.2.2 j hj i hij)

/-! ### C1: `svd_sort` applies one permutation to all three facets and
sorts `w` descending -/

/-- C1.  For `n ≥ 1`, `m ≥ 1` and any permutation `p` satisfying the
`qsort`/`cmp_iv` contract, `svd_sort` applies the single permutation `p` to
`w` (up to the thresholding of negligible values), to the columns of `A`,
and to the columns of `V`, and the resulting `w` is non-increasing:
`w[0] ≥ w[1] ≥ … ≥ w[n-1]`. -/
theorem svd_sort_triad_permutation (A : Mat) (n m : ℕ) (w : Vec) (V : Mat)
    (p : ℕ → ℕ) (hn : 1 ≤ n) (hm : 1 ≤ m) (hp : IsSortPerm n w p) :
    (∀ i, i < n →
        (svd_sort A n m w V p).2.1 i =
          if w (p i) / w (p 0) < SVD_EPS then 0 else w (p i)) ∧
    (∀ i, i < n → ∀ j, j < m → (svd_sort A n m w V p).1 j i = A j (p i)) ∧
    (∀ i, i < n → ∀ j, j < n → (svd_sort A n m w V p).2.2 j i = V j (p i)) ∧
    (∀ i j, i ≤ j → j < n →
        (svd_sort A n m w V p).2.1 j ≤ (svd_sort A n m w V p).2.1 i) := by
  have hdesc := isSortPerm_desc hp
  refine ⟨fun i hi => ?_, fun i hi j hj => ?_, fun i hi j hj => ?_,
    fun i j hij hj => ?_⟩
  · show (if i < n then
        if w (p i) / w (p 0) < SVD_EPS then 0 else w (p i) else w i) = _
    rw [if_pos hi]
  · show (if j < m ∧ i < n then A j (p i) else A j i) = _
    rw [if_pos ⟨hj, hi⟩]
  · show (if j < n ∧ i < n then V j (p i) else V j i) = _
    rw [if_pos ⟨hj, hi⟩]
  · have hi : i < n := lt_of_le_of_lt hij hj
    show (if j < n then
          if w (p j) / w (p 0) < SVD_EPS then 0 else w (p j) else w j) ≤
        (if i < n then
          if w (p i) / w (p 0) < SVD_EPS then 0 else w (p i) else w i)
    rw [if_pos hi, if_pos hj]
    have hij' : w (p j) ≤ w (p i) := hdesc i j hij hj
    by_cases ti : w (p i) / w (p 0) < SVD_EPS <;>
      by_cases tj : w (p j) / w (p 0) < SVD_EPS
    · rw [if_pos ti, if_pos tj]
    · -- `i` zeroed, `j` kept: the kept value must be nonpositive
      rw [if_pos ti, if_neg tj]
      by_contra hneg
      push_neg at hneg
      have hMj : w (p j) ≤ w (p 0) := hdesc 0 j (Nat.zero_le _) hj
      have hM : 0 < w (p 0) := lt_of_lt_of_le hneg hMj
      exact tj (lt_of_le_of_lt ((div_le_div_iff_of_pos_right hM).2 hij') ti)
    · -- `i` kept, `j` zeroed: the kept value must be nonnegative
      rw [if_neg ti, if_pos tj]
      by_contra hneg
      push_neg at hneg
      rcases lt_trichotomy (w (p 0)) 0 with hM | hM | hM
      · have h1 : w (p i) / w (p 0) ≤ w (p j) / w (p 0) :=
          div_le_div_of_nonpos_of_le (le_of_lt hM) hij'
        exact absurd tj (not_lt.2 (le_trans (not_lt.1 ti) h1))
      · exact ti (by rw [hM, div_zero]; exact SVD_EPS_pos)
      · exact ti (lt_trans (div_neg_of_neg_of_pos hneg hM) SVD_EPS_pos)
    · rw [if_neg ti, if_neg tj]
      exact hij'

/-- Witness for C1 at a concrete 1×2 triad whose permutation is the
transposition of the two columns. -/
theorem svd_sort_triad_permutation_witness :
    (∀ i, i < 2 →
        (svd_sort smpA 2 1 smpW smpV smpSwap).2.1 i =
          if smpW (smpSwap i) / smpW (smpSwap 0) < SVD_EPS then 0
          else smpW (smpSwap i)) ∧
    (∀ i, i < 2 → ∀ j, j < 1 →
        (svd_sort smpA 2 1 smpW smpV smpSwap).1 j i = smpA j (smpSwap i)) ∧
    (∀ i, i < 2 → ∀ j, j < 2 →
        (svd_sort smpA 2 1 smpW smpV smpSwap).2.2 j i = smpV j (smpSwap i)) ∧
    (∀ i j, i ≤ j → j < 2 →
        (svd_sort smpA 2 1 smpW smpV smpSwap).2.1 j ≤
          (svd_sort smpA 2 1 smpW smpV smpSwap).2.1 i) :=
  svd_sort_triad_permutation smpA 2 1 smpW smpV smpSwap (by norm_num)
    (by norm_num) (by decide)

/-! ### C3: thresholding of negligible singular values -/

/-- C3.  After `svd_sort`, every index `i < n` whose (sorted, pre-threshold)
singular value has ratio to the largest singular value `w[pos[0]]` below
`SVD_EPS` holds exactly `0`; entries are zeroed in place, not removed (the
vector beyond `n` is untouched). -/
theorem svd_sort_threshold_zeroing (A : Mat) (n m : ℕ) (w : Vec) (V : Mat)
    (p : ℕ → ℕ) (hn : 1 ≤ n) (hm : 1 ≤ m) (hp : IsSortPerm n w p) :
    (∀ i, i < n → w (p i) / w (p 0) < SVD_EPS →
        (svd_sort A n m w V p).2.1 i = 0) ∧
    (∀ i, n ≤ i → (svd_sort A n m w V p).2.1 i = w i) := by
  refine ⟨fun i hi hr => ?_, fun i hi => ?_⟩
  · show (if i < n then
        if w (p i) / w (p 0) < SVD_EPS then 0 else w (p i) else w i) = 0
    rw [if_pos hi, if_pos hr]
  · show (if i < n then
        if w (p i) / w (p 0) < SVD_EPS then 0 else w (p i) else w i) = w i
    rw [if_neg (by omega)]

/-- Witness for C3: with singular values `[1, 10^20]`, after sorting the
second entry has ratio `10⁻²⁰ < SVD_EPS` and is zeroed; entry `5` (past
`n = 2`) is untouched. -/
theorem svd_sort_threshold_zeroing_witness :
    (svd_sort smpA 2 1 smpW3 smpV smpSwap).2.1 1 = 0 ∧
    (svd_sort smpA 2 1 smpW3 smpV smpSwap).2.1 5 = smpW3 5 :=
  ⟨(svd_sort_threshold_zeroing smpA 2 1 smpW3 smpV smpSwap (by norm_num)
      (by norm_num) (by decide)).1 1 (by norm_num)
      (by norm_num [smpW3, smpSwap, SVD_EPS]),
   (svd_sort_threshold_zeroing smpA 2 1 smpW3 smpV smpSwap (by norm_num)
      (by norm_num) (by decide)).2 5 (by norm_num)⟩

/-! ### C6: `svd_invs` has no side effects on `A`, `w`, `V` -/

/-- C6.  `svd_invs` writes only the output matrix `AT` (and an internal
scratch copy of `V`); the inputs `A`, `w`, `V` come back exactly
unchanged. -/
theorem svd_invs_no_side_effects (AT A : Mat) (n m : ℕ) (w : Vec) (V : Mat)
    (hn : 1 ≤ n) (hm : 1 ≤ m) :
    (svd_invs AT A n m w V).2.1 = A ∧
    (svd_invs AT A n m w V).2.2.1 = w ∧
    (svd_invs AT A n m w V).2.2.2 = V :=
  ⟨rfl, rfl, rfl⟩

/-- Witness for C6 at a concrete 1×1 problem. -/
theorem svd_invs_no_side_effects_witness :
    (svd_invs smpV smpA 1 1 smpW smpV).2.1 = smpA ∧
    (svd_invs smpV smpA 1 1 smpW smpV).2.2.1 = smpW ∧
    (svd_invs smpV smpA 1 1 smpW smpV).2.2.2 = smpV :=
  svd_invs_no_side_effects smpV smpA 1 1 smpW smpV (by norm_num) (by norm_num)

/-! ### C4: the sorting permutation and (non-)stability -/

theorem insertIdx_perm (w : Vec) (i : ℕ) :
    ∀ L : List ℕ, (insertIdx w i L).Perm (i :: L)
  | [] => List.Perm.refl _
  | j :: t => by
    unfold insertIdx
    split_ifs with h
    · exact List.Perm.refl _
    · exact (((insertIdx_perm w i t).cons j).trans (List.Perm.swap i j t))

theorem insertIdx_pairwise (w : Vec) (i : ℕ) :
    ∀ {L : List ℕ}, L.Pairwise (descR w) → (∀ j ∈ L, j < i) →
      (insertIdx w i L).Pairwise (descR w)
  | [], _, _ => by simp [insertIdx, descR]
  | j :: t, hp, hlt => by
    unfold insertIdx
    rcases List.pairwise_cons.1 hp with ⟨hj, ht⟩
    split_ifs with h
    · refine List.pairwise_cons.2 ⟨?_, hp⟩
      intro x hx
      rcases List.mem_cons.1 hx with rfl | hx
      · exact Or.inl h
      · rcases hj x hx with hlt' | ⟨heq, _⟩
        · exact Or.inl (lt_trans hlt' h)
        · exact Or.inl (heq ▸ h)
    · refine List.pairwise_cons.2
        ⟨?_, insertIdx_pairwise w i ht
          (fun x hx => hlt x (List.mem_cons_of_mem _ hx))⟩
      intro x hx
      have hx' : x ∈ i :: t := (insertIdx_perm w i t).mem_iff.1 hx
      rcases List.mem_cons.1 hx' with rfl | hx''
      · rcases lt_or_eq_of_le (not_lt.1 h) with hlt' | heq
        · exact Or.inl hlt'
        · exact Or.inr ⟨heq.symm, hlt j (List.mem_cons_self _ _)⟩
      · exact hj x hx''

theorem stableDescIdx_spec (w : Vec) :
    ∀ n : ℕ, (stableDescIdx w n).Perm (List.range n) ∧
      (stableDescIdx w n).Pairwise (descR w) := by
  intro n
  induction n with
  | zero => exact ⟨List.Perm.refl _, List.Pairwise.nil⟩
  | succ n ih =>
    have hstep : stableDescIdx w (n + 1) =
        insertIdx w n (stableDescIdx w n) := by
      unfold stableDescIdx
      rw [List.range_succ, List.foldl_append]
      rfl
    refine ⟨?_, ?_⟩
    · rw [hstep]
      refine (insertIdx_perm w n _).trans ?_
      refine (ih.1.cons n).trans ?_
      rw [List.range_succ]
      exact (List.perm_append_singleton n (List.range n)).symm
    · rw [hstep]
      exact insertIdx_pairwise w n ih.2
        (fun x hx => List.mem_range.1 (ih.1.mem_iff.1 hx))

/-- C4 (amended).  The index-based stable descending sort is one valid
outcome of the `qsort` contract: it satisfies `IsSortPerm` and additionally
breaks ties by original index order.  (The `qsort` contract itself does not
force stability; see the counterexample.) -/
theorem sortvector_stable_sort_valid (n : ℕ) (w : Vec) :
    IsSortPerm n w (stableDescPerm w n) ∧
      StableOnTies n w (stableDescPerm w n) := by
  obtain ⟨hperm, hpair⟩ := stableDescIdx_spec w n
  have hlen : (stableDescIdx w n).length = n := by
    rw [hperm.length_eq, List.length_range]
  have hget : ∀ i (hi : i < n),
      stableDescPerm w n i =
        (stableDescIdx w n).get ⟨i, by rw [hlen]; exact hi⟩ := by
    intro i hi
    have hi' : i < (stableDescIdx w n).length := by rw [hlen]; exact hi
    simp [stableDescPerm, List.getD_eq_getElem?_getD,
      List.getElem?_eq_getElem hi']
  have hmem : ∀ i, i < n → stableDescPerm w n i < n := by
    intro i hi
    rw [hget i hi]
    exact List.mem_range.1 (hperm.mem_iff.1 (List.get_mem _ _ _))
  have hR : ∀ i j, i < j → j < n →
      descR w (stableDescPerm w n i) (stableDescPerm w n j) := by
    intro i j hij hj
    have hi : i < n := lt_trans hij hj
    rw [hget i hi, hget j hj]
    exact List.pairwise_iff_getElem.1 hpair i j (by rw [hlen]; exact hi)
      (by rw [hlen]; exact hj) hij
  refine ⟨⟨hmem, ?_, ?_⟩, ?_⟩
  · intro i hi j hj hpij
    by_contra hne
    rcases Nat.lt_or_ge i j with hij | hij
    · rcases hR i j hij hj with hlt | ⟨_, hlt⟩
      · rw [hpij] at hlt; exact lt_irrefl _ hlt
      · rw [hpij] at hlt; exact lt_irrefl _ hlt
    · have hij' : j < i := lt_of_le_of_ne hij (fun h => hne h.symm)
      rcases hR j i hij' hi with hlt | ⟨_, hlt⟩
      · rw [hpij] at hlt; exact lt_irrefl _ hlt
      · rw [hpij] at hlt; exact lt_irrefl _ hlt
  · intro j hj i hij
    rcases lt_or_eq_of_le hij with hlt | rfl
    · rcases hR i j hlt hj with hlt' | ⟨heq, _⟩
      · exact cmp_iv_nonpos.2 (le_of_lt hlt')
      · exact cmp_iv_nonpos.2 (le_of_eq heq.symm)
    · exact cmp_iv_nonpos.2 (le_refl _)
  · intro b hb a hab heq
    rcases hR a b hab hb with hlt | ⟨_, hlt⟩
    · rw [heq] at hlt; exact absurd hlt (lt_irrefl _)
    · exact hlt

/-- Counterexample for C4 as stated: with the all-ties vector `[5, 5]`, the
transposition of the two indices is a valid `qsort`/`cmp_iv` outcome
(`IsSortPerm`), yet it does not preserve the original order of the tied
indices, so the permutation `svd_sort` applies need not be the stable
descending sort. -/
theorem sortvector_not_stable_cex :
    IsSortPerm 2 cexW4 smpSwap ∧ ¬ StableOnTies 2 cexW4 smpSwap := by
  decide

/-! ### C8: idempotence of `svd_sort` -/

/-- C8 (amended).  On a triad whose singular values are strictly descending
and already thresholded, `svd_sort` is a no-op for every valid `qsort`
permutation: the strict order forces the permutation to be the identity on
`0..n-1`.  (With tied values `qsort` may reorder the tied columns, so
idempotence does not hold bit-for-bit in general; see the
counterexample.) -/
theorem svd_sort_idempotent_distinct (A : Mat) (n m : ℕ) (w : Vec) (V : Mat)
    (p : ℕ → ℕ) (hn : 1 ≤ n)
    (hsorted : ∀ j, j < n → ∀ i, i < j → w j < w i)
    (hthr : ∀ i, i < n → w i / w 0 < SVD_EPS → w i = 0)
    (hp : IsSortPerm n w p) :
    svd_sort A n m w V p = (A, w, V) := by
  have hmono : ∀ i j, i < j → j < n → p i < p j := by
    intro i j hij hj
    have hi := lt_trans hij hj
    have hle : w (p j) ≤ w (p i) := isSortPerm_desc hp i j (le_of_lt hij) hj
    rcases Nat.lt_trichotomy (p i) (p j) with h | h | h
    · exact h
    · exact absurd (hp.2.1 i hi j hj h) (Nat.ne_of_lt hij)
    · exact absurd hle (not_le.2 (hsorted (p i) (hp.1 i hi) (p j) h))
  have hchain : ∀ d i, i + d < n → p i + d ≤ p (i + d) := by
    intro d
    induction d with
    | zero => intro i _; simp
    | succ d ih =>
      intro i h
      have heq : i + (d + 1) = i + d + 1 := by omega
      rw [heq]
      have h1 := hmono (i + d) (i + d + 1) (by omega) (by omega)
      have h2 : p i + d ≤ p (i + d) := ih i (by omega)
      omega
  have hid : ∀ i, i < n → p i = i := by
    intro i hi
    have hge : 0 + i ≤ p i := by
      have h0 := hchain i 0 (by omega)
      rw [Nat.zero_add] at h0
      have := Nat.zero_le (p 0)
      omega
    have hle2 : p i ≤ i := by
      have h1 := hchain (n - 1 - i) i (by omega)
      have h2 : p (i + (n - 1 - i)) < n := hp.1 _ (by omega)
      omega
    omega
  have hw0 : p 0 = 0 := hid 0 (by omega)
  have hA : (svd_sort A n m w V p).1 = A := by
    funext j i
    show (if j < m ∧ i < n then A j (p i) else A j i) = A j i
    split_ifs with h
    · rw [hid i h.2]
    · rfl
  have hw : (svd_sort A n m w V p).2.1 = w := by
    funext i
    show (if i < n then
        if w (p i) / w (p 0) < SVD_EPS then 0 else w (p i) else w i) = w i
    split_ifs with h1 h2
    · rw [hid i h1, hw0] at h2
      exact (hthr i h1 h2).symm
    · rw [hid i h1]
    · rfl
  have hV : (svd_sort A n m w V p).2.2 = V := by
    funext j i
    show (if j < n ∧ i < n then V j (p i) else V j i) = V j i
    split_ifs with h
    · rw [hid i h.2]
    · rfl
  calc svd_sort A n m w V p
      = ((svd_sort A n m w V p).1,
         (svd_sort A n m w V p).2.1, (svd_sort A n m w V p).2.2) := rfl
    _ = (A, w, V) := by rw [hA, hw, hV]

/-- Witness for the amended C8 on a strictly descending thresholded
triad. -/
theorem svd_sort_idempotent_distinct_witness :
    svd_sort smpA 2 1 smpW8 smpV idPerm = (smpA, smpW8, smpV) :=
  svd_sort_idempotent_distinct smpA 2 1 smpW8 smpV idPerm (by norm_num)
    (by decide)
    (by intro i hi
        interval_cases i <;> norm_num [smpW8, SVD_EPS])
    (by decide)

/-- Counterexample for C8 as stated: the triad `(cexA8, cexW8, smpV)` with
tied singular values `[1, 1]` is itself an output of `svd_sort` (of itself,
under the valid identity permutation), yet re-running `svd_sort` with the
equally valid transposition permutation changes `A[0][0]` from `10` to `20`:
a second call need not be bit-identical. -/
theorem svd_sort_idempotent_cex :
    IsSortPerm 2 cexW8 idPerm ∧
    svd_sort cexA8 2 1 cexW8 smpV idPerm = (cexA8, cexW8, smpV) ∧
    IsSortPerm 2 cexW8 smpSwap ∧
    (svd_sort cexA8 2 1 cexW8 smpV smpSwap).1 0 0 ≠ cexA8 0 0 := by
  refine ⟨by decide, ?_, by decide, by decide⟩
  have hA : (svd_sort cexA8 2 1 cexW8 smpV idPerm).1 = cexA8 := by
    funext j i
    show (if j < 1 ∧ i < 2 then cexA8 j (idPerm i) else cexA8 j i) = cexA8 j i
    split_ifs <;> rfl
  have hw : (svd_sort cexA8 2 1 cexW8 smpV idPerm).2.1 = cexW8 := by
    funext i
    show (if i < 2 then
        if cexW8 (idPerm i) / cexW8 (idPerm 0) < SVD_EPS then 0
        else cexW8 (idPerm i) else cexW8 i) = cexW8 i
    by_cases h : i < 2
    · have h1 : cexW8 i = 1 := by simp [cexW8, h]
      have h0 : cexW8 0 = 1 := by norm_num [cexW8]
      rw [if_pos h]
      show (if cexW8 i / cexW8 0 < SVD_EPS then 0 else cexW8 i) = cexW8 i
      rw [h1, h0, if_neg (by norm_num [SVD_EPS])]
    · rw [if_neg h]
  have hV : (svd_sort cexA8 2 1 cexW8 smpV idPerm).2.2 = smpV := by
    funext j i
    show (if j < 2 ∧ i < 2 then smpV j (idPerm i) else smpV j i) = smpV j i
    split_ifs <;> rfl
  calc svd_sort cexA8 2 1 cexW8 smpV idPerm
      = ((svd_sort cexA8 2 1 cexW8 smpV idPerm).1,
         (svd_sort cexA8 2 1 cexW8 smpV idPerm).2.1,
         (svd_sort cexA8 2 1 cexW8 smpV idPerm).2.2) := rfl
    _ = (cexA8, cexW8, smpV) := by rw [hA, hw, hV]

/-! ### C2: the pseudo-inverse formula computed by `svd_invs` -/

theorem foldl_add_shift (L : List ℕ) (f : ℕ → ℚ) :
    ∀ x : ℚ, L.foldl (fun a k => a + f k) x = x + sumL L f := by
  induction L with
  | nil => intro x; simp [sumL]
  | cons b t ih =>
    intro x
    show t.foldl (fun a k => a + f k) (x + f b) = x + sumL (b :: t) f
    rw [ih (x + f b)]
    have : sumL (b :: t) f = (0 + f b) + sumL t f := by
      show t.foldl (fun a k => a + f k) (0 + f b) = (0 + f b) + sumL t f
      rw [ih (0 + f b)]
    rw [this]
    ring

theorem sumL_cons (b : ℕ) (t : List ℕ) (f : ℕ → ℚ) :
    sumL (b :: t) f = f b + sumL t f := by
  show t.foldl (fun a k => a + f k) (0 + f b) = f b + sumL t f
  rw [foldl_add_shift]
  ring

theorem sumL_congr {L : List ℕ} {f g : ℕ → ℚ}
    (h : ∀ k ∈ L, f k = g k) : sumL L f = sumL L g := by
  induction L with
  | nil => rfl
  | cons b t ih =>
    rw [sumL_cons, sumL_cons, h b (List.mem_cons_self _ _),
      ih fun k hk => h k (List.mem_cons_of_mem _ hk)]

theorem rng_zero_succ (mm : ℕ) : rng 0 (mm + 1) = rng 0 mm ++ [mm] := by
  show List.range' 0 (mm + 1 - 0) = List.range' 0 (mm - 0) ++ [mm]
  rw [Nat.sub_zero, Nat.sub_zero]
  have h := List.range'_append_1 0 mm 1
  rw [Nat.zero_add, Nat.add_comm 1 mm] at h
  rw [← h, List.range'_one]

theorem sumL_rng_eq_sum (mm : ℕ) (f : ℕ → ℚ) :
    sumL (rng 0 mm) f = ∑ k ∈ Finset.range mm, f k := by
  induction mm with
  | zero => rfl
  | succ mm ih =>
    rw [rng_zero_succ]
    show List.foldl (fun a k => a + f k) 0 (rng 0 mm ++ [mm]) = _
    rw [List.foldl_append]
    show List.foldl (fun a k => a + f k) (sumL (rng 0 mm) f) [mm] = _
    show sumL (rng 0 mm) f + f mm = _
    rw [ih, Finset.sum_range_succ]

/-- Entry characterization of the inner accumulation loop
`AT[i][j] = 0; for (k ...) AT[i][j] += t k`. -/
theorem foldl_updM_acc (i j : ℕ) (t : ℕ → ℚ) :
    ∀ (L : List ℕ) (M : Mat) (r c : ℕ),
      (L.foldl (fun M k => updM M i j (M i j + t k)) M) r c =
        if r = i ∧ c = j then M i j + sumL L t else M r c := by
  intro L
  induction L with
  | nil =>
    intro M r c
    show M r c = if r = i ∧ c = j then M i j + sumL [] t else M r c
    split_ifs with h
    · rcases h with ⟨rfl, rfl⟩
      show M r c = M r c + sumL [] t
      show M r c = M r c + 0
      rw [add_zero]
    · rfl
  | cons k L ih =>
    intro M r c
    show (L.foldl _ (updM M i j (M i j + t k))) r c = _
    rw [ih]
    rw [sumL_cons]
    split_ifs with h
    · rcases h with ⟨rfl, rfl⟩
      rw [updM_self]
      ring
    · rw [updM_ne _ _ _ _ h]

/-- Entry characterization of a row of cell writes at fixed row `i`. -/
theorem foldl_cellwrite_row {F : ℕ → Mat → Mat} {g : ℕ → ℚ} {i : ℕ}
    (hF : ∀ j AT r c, (F j AT) r c = if r = i ∧ c = j then g j else AT r c) :
    ∀ (Lj : List ℕ) (AT : Mat) (r c : ℕ),
      (Lj.foldl (fun M j => F j M) AT) r c =
        if r = i ∧ c ∈ Lj then g c else AT r c := by
  intro Lj
  induction Lj with
  | nil => intro AT r c; simp
  | cons j t ih =>
    intro AT r c
    show (t.foldl (fun M j => F j M) (F j AT)) r c = _
    rw [ih, hF]
    by_cases hr : r = i
    · subst hr
      by_cases hc : c ∈ t
      · rw [if_pos ⟨rfl, hc⟩, if_pos ⟨rfl, List.mem_cons_of_mem _ hc⟩]
      · rw [if_neg (fun h => hc h.2)]
        by_cases hj : c = j
        · subst hj
          rw [if_pos ⟨rfl, rfl⟩, if_pos ⟨rfl, List.mem_cons_self _ _⟩]
        · rw [if_neg (fun h => hj h.2),
            if_neg (fun h => (List.mem_cons.1 h.2).elim hj hc)]
    · rw [if_neg (fun h => hr h.1), if_neg (fun h => hr h.1),
        if_neg (fun h => hr h.1)]

/-- Entry characterization of a doubly nested loop of cell writes whose
written value does not depend on the matrix being written. -/
theorem foldl_cellwrite_grid {F : ℕ → ℕ → Mat → Mat} {g : ℕ → ℕ → ℚ}
    (hF : ∀ i j AT r c,
      (F i j AT) r c = if r = i ∧ c = j then g i j else AT r c)
    (Li : List ℕ) :
    ∀ (Lo : List ℕ) (AT : Mat) (r c : ℕ),
      (Lo.foldl (fun M i => Li.foldl (fun M j => F i j M) M) AT) r c =
        if r ∈ Lo ∧ c ∈ Li then g r c else AT r c := by
  intro Lo
  induction Lo with
  | nil => intro AT r c; simp
  | cons i t ih =>
    intro AT r c
    show (t.foldl _ (Li.foldl (fun M j => F i j M) AT)) r c = _
    rw [ih, foldl_cellwrite_row (hF i)]
    by_cases hc : c ∈ Li
    · by_cases hrt : r ∈ t
      · rw [if_pos ⟨hrt, hc⟩, if_pos ⟨List.mem_cons_of_mem _ hrt, hc⟩]
      · rw [if_neg (fun h => hrt h.1)]
        by_cases hri : r = i
        · subst hri
          rw [if_pos ⟨rfl, hc⟩, if_pos ⟨List.mem_cons_self _ _, hc⟩]
        · rw [if_neg (fun h => hri h.1),
            if_neg (fun h => (List.mem_cons.1 h.1).elim hri hrt)]
    · rw [if_neg (fun h => hc h.2), if_neg (fun h => hc h.2),
        if_neg (fun h => hc h.2)]

/-- Entry characterization of a column of cell writes at fixed column `i`. -/
theorem foldl_cellwrite_col {F : ℕ → Mat → Mat} {g : ℕ → ℚ} {i : ℕ}
    (hF : ∀ j AT r c, (F j AT) r c = if r = j ∧ c = i then g j else AT r c) :
    ∀ (Lj : List ℕ) (AT : Mat) (r c : ℕ),
      (Lj.foldl (fun M j => F j M) AT) r c =
        if r ∈ Lj ∧ c = i then g r else AT r c := by
  intro Lj
  induction Lj with
  | nil => intro AT r c; simp
  | cons j t ih =>
    intro AT r c
    show (t.foldl (fun M j => F j M) (F j AT)) r c = _
    rw [ih, hF]
    by_cases hci : c = i
    · subst hci
      by_cases hrt : r ∈ t
      · rw [if_pos ⟨hrt, rfl⟩, if_pos ⟨List.mem_cons_of_mem _ hrt, rfl⟩]
      · rw [if_neg (fun h => hrt h.1)]
        by_cases hrj : r = j
        · subst hrj
          rw [if_pos ⟨rfl, rfl⟩, if_pos ⟨List.mem_cons_self _ _, rfl⟩]
        · rw [if_neg (fun h => hrj h.1),
            if_neg (fun h => (List.mem_cons.1 h.1).elim hrj hrt)]
    · rw [if_neg (fun h => hci h.2), if_neg (fun h => hci h.2),
        if_neg (fun h => hci h.2)]

/-- Entry characterization of a doubly nested loop of cell writes addressed
`[inner][outer]` (as in the `vtemp` loop of `svd_invs`). -/
theorem foldl_cellwrite_gridT {F : ℕ → ℕ → Mat → Mat} {g : ℕ → ℕ → ℚ}
    (hF : ∀ i j AT r c,
      (F i j AT) r c = if r = j ∧ c = i then g i j else AT r c)
    (Li : List ℕ) :
    ∀ (Lo : List ℕ) (AT : Mat) (r c : ℕ),
      (Lo.foldl (fun M i => Li.foldl (fun M j => F i j M) M) AT) r c =
        if r ∈ Li ∧ c ∈ Lo then g c r else AT r c := by
  intro Lo
  induction Lo with
  | nil => intro AT r c; simp
  | cons i t ih =>
    intro AT r c
    show (t.foldl _ (Li.foldl (fun M j => F i j M) AT)) r c = _
    rw [ih, foldl_cellwrite_col (hF i)]
    by_cases hr : r ∈ Li
    · by_cases hct : c ∈ t
      · rw [if_pos ⟨hr, hct⟩, if_pos ⟨hr, List.mem_cons_of_mem _ hct⟩]
      · rw [if_neg (fun h => hct h.2)]
        by_cases hci : c = i
        · subst hci
          rw [if_pos ⟨hr, rfl⟩, if_pos ⟨hr, List.mem_cons_self _ _⟩]
        · rw [if_neg (fun h => hci h.2),
            if_neg (fun h => (List.mem_cons.1 h.2).elim hci hct)]
    · rw [if_neg (fun h => hr h.1), if_neg (fun h => hr h.1),
        if_neg (fun h => hr h.1)]

/-- Entry values of the scratch matrix of `svd_invs`. -/
theorem invs_vtemp_entry (n m : ℕ) (w : Vec) (V : Mat) (r c : ℕ) :
    invs_vtemp n m w V r c =
      if r < n ∧ c < min n m then V r c / w c else V r c := by
  have hF : ∀ (i j : ℕ) (AT : Mat) (r c : ℕ),
      updM AT j i (V j i / w i) r c =
        if r = j ∧ c = i then V j i / w i else AT r c := fun _ _ _ _ _ => rfl
  have h := foldl_cellwrite_gridT hF (rng 0 n) (rng 0 (min n m)) V r c
  rw [show invs_vtemp n m w V r c =
      ((rng 0 (min n m)).foldl (fun vt i =>
        (rng 0 n).foldl (fun vt j => updM vt j i (V j i / w i)) vt) V) r c
    from rfl, h]
  by_cases h1 : r < n <;> by_cases h2 : c < min n m
  · rw [if_pos ⟨mem_rng.2 ⟨Nat.zero_le _, h1⟩, mem_rng.2 ⟨Nat.zero_le _, h2⟩⟩,
      if_pos ⟨h1, h2⟩]
  · rw [if_neg (fun h => h2 (mem_rng.1 h.2).2), if_neg (fun h => h2 h.2)]
  · rw [if_neg (fun h => h1 (mem_rng.1 h.1).2), if_neg (fun h => h1 h.1)]
  · rw [if_neg (fun h => h1 (mem_rng.1 h.1).2), if_neg (fun h => h1 h.1)]

/-- C2.  For `n, m ≥ 1` with nonzero leading singular values, `svd_invs`
computes `AT[i][j] = Σ_{k < min(n,m)} (V[i][k] / w[k]) · U[j][k]` for all
`i < n`, `j < m`, i.e. `AT = V · diag(w⁺) · Uᵗ` with `w⁺` supported on the
first `min(n,m)` modes. -/
theorem svd_invs_pseudoinverse_formula (AT A : Mat) (n m : ℕ) (w : Vec)
    (V : Mat) (hn : 1 ≤ n) (hm : 1 ≤ m)
    (hw : ∀ k, k < min n m → w k ≠ 0) :
    ∀ i, i < n → ∀ j, j < m →
      (svd_invs AT A n m w V).1 i j =
        ∑ k ∈ Finset.range (min n m), V i k / w k * A j k := by
  intro i hi j hj
  have hF : ∀ (i' j' : ℕ) (M : Mat) (r c : ℕ),
      ((rng 0 (min n m)).foldl
        (fun M k => updM M i' j'
          (M i' j' + invs_vtemp n m w V i' k * A j' k))
        (updM M i' j' 0)) r c =
      if r = i' ∧ c = j' then
        sumL (rng 0 (min n m))
          (fun k => invs_vtemp n m w V i' k * A j' k)
      else M r c := by
    intro i' j' M r c
    rw [foldl_updM_acc]
    split_ifs with h
    · rcases h with ⟨rfl, rfl⟩
      rw [updM_self, zero_add]
    · rw [updM_ne _ _ _ _ h]
  have hmain := foldl_cellwrite_grid hF (rng 0 m) (rng 0 n) AT i j
  rw [if_pos ⟨mem_rng.2 ⟨Nat.zero_le _, hi⟩, mem_rng.2 ⟨Nat.zero_le _, hj⟩⟩]
    at hmain
  have hcongr : sumL (rng 0 (min n m))
      (fun k => invs_vtemp n m w V i k * A j k) =
      sumL (rng 0 (min n m)) (fun k => V i k / w k * A j k) := by
    refine sumL_congr fun k hk => ?_
    rw [invs_vtemp_entry, if_pos ⟨hi, (mem_rng.1 hk).2⟩]
  exact hmain.trans (hcongr.trans (sumL_rng_eq_sum _ _))

/-- Witness for C2 at a concrete 1×1 problem. -/
theorem svd_invs_pseudoinverse_formula_witness :
    (svd_invs smpV smpA 1 1 smpW smpV).1 0 0 =
      ∑ k ∈ Finset.range (min 1 1), smpV 0 k / smpW k * smpA 0 k :=
  svd_invs_pseudoinverse_formula smpV smpA 1 1 smpW smpV (by norm_num)
    (by norm_num) (by decide) 0 (by norm_num) 0 (by norm_num)

/-! ### Lemmas about the diagonalization phase of `svd` -/

theorem rng_nodup (a b : ℕ) : (rng a b).Nodup := List.nodup_range' _ _

theorem splitSearch_le {tst1 : ℚ} {rv1 w : Vec} :
    ∀ {l0 l : ℕ} {dc : Bool},
      splitSearch tst1 rv1 w l0 = some (l, dc) → l ≤ l0 := by
  intro l0
  induction l0 with
  | zero =>
    intro l dc h
    simp only [splitSearch] at h
    split_ifs at h
    simp only [Option.some.injEq, Prod.mk.injEq] at h
    omega
  | succ l' ih =>
    intro l dc h
    simp only [splitSearch] at h
    split_ifs at h
    · simp only [Option.some.injEq, Prod.mk.injEq] at h
      omega
    · simp only [Option.some.injEq, Prod.mk.injEq] at h
      omega
    · exact le_trans (ih h) (Nat.le_succ _)

theorem splitSearch_dc_pos {tst1 : ℚ} {rv1 w : Vec} :
    ∀ {l0 l : ℕ}, splitSearch tst1 rv1 w l0 = some (l, true) → 1 ≤ l := by
  intro l0
  induction l0 with
  | zero =>
    intro l h
    simp only [splitSearch] at h
    split_ifs at h
    simp only [Option.some.injEq, Prod.mk.injEq] at h
    exact absurd h.2 (by simp)
  | succ l' ih =>
    intro l h
    simp only [splitSearch] at h
    split_ifs at h
    · simp only [Option.some.injEq, Prod.mk.injEq] at h
      exact absurd h.2 (by simp)
    · simp only [Option.some.injEq, Prod.mk.injEq] at h
      omega
    · exact ih h

theorem splitSearch_ne_none {tst1 : ℚ} {rv1 w : Vec} (h0 : rv1 0 = 0) :
    ∀ l0, splitSearch tst1 rv1 w l0 ≠ none := by
  intro l0
  induction l0 with
  | zero =>
    simp only [splitSearch, h0, abs_zero, zero_add, if_pos rfl]
    simp
  | succ l' ih =>
    simp only [splitSearch]
    split_ifs
    · simp
    · simp
    · exact ih

theorem cancelGo_w (ops : FloatOps) (m : ℕ) (tst1 : ℚ) (l1 : ℕ) :
    ∀ (L : List ℕ) (st : DState) (c s : ℚ) (j : ℕ),
      (∀ i ∈ L, i ≠ j) →
      (cancelGo ops m tst1 l1 L st c s).w j = st.w j := by
  intro L
  induction L with
  | nil => intro st c s j _; rfl
  | cons i rest ih =>
    intro st c s j hj
    show (if _ then _ else _ : DState).w j = _
    split_ifs with hb
    · rfl
    · rw [ih _ _ _ j fun i' hi' => hj i' (List.mem_cons_of_mem _ hi')]
      exact updV_ne _ _ _ (Ne.symm (hj i (List.mem_cons_self _ _)))

theorem cancelGo_rv1 (ops : FloatOps) (m : ℕ) (tst1 : ℚ) (l1 : ℕ) :
    ∀ (L : List ℕ) (st : DState) (c s : ℚ) (j : ℕ),
      (∀ i ∈ L, i ≠ j) →
      (cancelGo ops m tst1 l1 L st c s).rv1 j = st.rv1 j := by
  intro L
  induction L with
  | nil => intro st c s j _; rfl
  | cons i rest ih =>
    intro st c s j hj
    have hne : j ≠ i := Ne.symm (hj i (List.mem_cons_self _ _))
    show (if _ then _ else _ : DState).rv1 j = _
    split_ifs with hb
    · exact updV_ne _ _ _ hne
    · rw [ih _ _ _ j fun i' hi' => hj i' (List.mem_cons_of_mem _ hi')]
      exact updV_ne _ _ _ hne

theorem qrGo_w (ops : FloatOps) (n m : ℕ) :
    ∀ (L : List ℕ) (st : DState) (c s f x : ℚ) (j : ℕ),
      (∀ i1 ∈ L, i1 ≠ j) →
      (qrGo ops n m L st c s f x).1.w j = st.w j := by
  intro L
  induction L with
  | nil => intro st c s f x j _; rfl
  | cons i1 rest ih =>
    intro st c s f x j hj
    show (qrGo ops n m rest _ _ _ _ _).1.w j = _
    rw [ih _ _ _ _ _ j fun i' hi' => hj i' (List.mem_cons_of_mem _ hi')]
    exact updV_ne _ _ _ (Ne.symm (hj i1 (List.mem_cons_self _ _)))

theorem qrGo_rv1 (ops : FloatOps) (n m : ℕ) :
    ∀ (L : List ℕ) (st : DState) (c s f x : ℚ) (j : ℕ),
      (∀ i1 ∈ L, i1 ≠ j) →
      (qrGo ops n m L st c s f x).1.rv1 j = st.rv1 j := by
  intro L
  induction L with
  | nil => intro st c s f x j _; rfl
  | cons i1 rest ih =>
    intro st c s f x j hj
    show (qrGo ops n m rest _ _ _ _ _).1.rv1 j = _
    rw [ih _ _ _ _ _ j fun i' hi' => hj i' (List.mem_cons_of_mem _ hi')]
    exact updV_ne _ _ _ (Ne.symm (hj i1 (List.mem_cons_self _ _)))

theorem qrStep_w_high (ops : FloatOps) (n m : ℕ) (k l : ℕ) (st : DState)
    (j : ℕ) (hj : k < j) : (qrStep ops n m k l st).w j = st.w j := by
  show updV (qrGo ops n m (rng l k) st 1 1 _ _).1.w k _ j = st.w j
  rw [updV_ne _ _ _ (by omega)]
  exact qrGo_w ops n m _ st _ _ _ _ j
    fun i1 hi1 => by have := (mem_rng.1 hi1).2; omega

theorem qrStep_rv1_zero (ops : FloatOps) (n m : ℕ) (k l : ℕ) (st : DState)
    (hlk : l < k) (h0 : st.rv1 0 = 0) :
    (qrStep ops n m k l st).rv1 0 = 0 := by
  show updV (updV (qrGo ops n m (rng l k) st 1 1 _ _).1.rv1 l 0) k _ 0 = 0
  rw [updV_ne _ _ _ (by omega)]
  rcases Nat.eq_zero_or_pos l with rfl | hl
  · rw [updV_self]
  · rw [updV_ne _ _ _ (by omega)]
    rw [qrGo_rv1 ops n m _ st _ _ _ _ 0
      fun i1 hi1 => by have := (mem_rng.1 hi1).1; omega]
    exact h0

theorem convStep_w_k (n k : ℕ) (st : DState) : 0 ≤ (convStep n k st).w k := by
  unfold convStep
  split_ifs with h
  · show 0 ≤ updV st.w k (-st.w k) k
    rw [updV_self]
    linarith
  · exact not_lt.1 h

theorem convStep_w_ne (n k : ℕ) (st : DState) (j : ℕ) (hj : j ≠ k) :
    (convStep n k st).w j = st.w j := by
  unfold convStep
  split_ifs with h
  · exact updV_ne _ _ _ hj
  · rfl

theorem convStep_rv1 (n k : ℕ) (st : DState) :
    (convStep n k st).rv1 = st.rv1 := by
  unfold convStep
  split_ifs <;> rfl

theorem convStep_A (n k : ℕ) (st : DState) :
    (convStep n k st).A = st.A := by
  unfold convStep
  split_ifs <;> rfl

/-- Case analysis of one sweep iteration in terms of the splitting search
and the two branch functions. -/
theorem qrIter_eq (ops : FloatOps) (n m : ℕ) (tst1 : ℚ) (k : ℕ)
    (st : DState) :
    (splitSearch tst1 st.rv1 st.w k = none ∧
      qrIter ops n m tst1 k st = .oob) ∨
    (∃ l dc, splitSearch tst1 st.rv1 st.w k = some (l, dc) ∧ l ≤ k ∧
      qrIter ops n m tst1 k st =
        (if l ≠ k
         then .next (qrStep ops n m k l
           (if dc then cancelGo ops m tst1 (l - 1) (rng l (k + 1)) st 0 1
            else st))
         else .conv (convStep n k
           (if dc then cancelGo ops m tst1 (l - 1) (rng l (k + 1)) st 0 1
            else st)))) := by
  cases hs : splitSearch tst1 st.rv1 st.w k with
  | none =>
    refine Or.inl ⟨rfl, ?_⟩
    unfold qrIter
    rw [hs]
  | some p =>
    obtain ⟨l, dc⟩ := p
    refine Or.inr ⟨l, dc, rfl, splitSearch_le hs, ?_⟩
    unfold qrIter
    rw [hs]

theorem qrIter_next_spec (ops : FloatOps) (n m : ℕ) (tst1 : ℚ) (k : ℕ)
    (st st' : DState) (h : qrIter ops n m tst1 k st = .next st') :
    (∀ j, k < j → st'.w j = st.w j) ∧
    (st.rv1 0 = 0 → st'.rv1 0 = 0) := by
  rcases qrIter_eq ops n m tst1 k st with ⟨_, he⟩ | ⟨l, dc, hs, hle, he⟩
  · rw [he] at h
    exact absurd h (fun hh => IterOut.noConfusion hh)
  · rw [he] at h
    by_cases hlk : l ≠ k
    · rw [if_pos hlk] at h
      injection h with h'
      subst h'
      have hstc_w : ∀ j, k < j →
          (if dc then cancelGo ops m tst1 (l - 1) (rng l (k + 1)) st 0 1
           else st).w j = st.w j := by
        intro j hj
        cases dc
        · rfl
        · show (cancelGo ops m tst1 (l - 1) (rng l (k + 1)) st 0 1).w j = _
          exact cancelGo_w ops m tst1 (l - 1) _ st 0 1 j
            fun i hi => by have := (mem_rng.1 hi).2; omega
      have hstc_rv1 : st.rv1 0 = 0 →
          (if dc then cancelGo ops m tst1 (l - 1) (rng l (k + 1)) st 0 1
           else st).rv1 0 = 0 := by
        intro h0
        cases dc
        · exact h0
        · show (cancelGo ops m tst1 (l - 1) (rng l (k + 1)) st 0 1).rv1 0 = 0
          rw [cancelGo_rv1 ops m tst1 (l - 1) _ st 0 1 0
            fun i hi => by
              have h1 := (mem_rng.1 hi).1
              have h2 := splitSearch_dc_pos hs
              omega]
          exact h0
      constructor
      · intro j hj
        rw [qrStep_w_high ops n m k l _ j hj]
        exact hstc_w j hj
      · intro h0
        exact qrStep_rv1_zero ops n m k l _ (by omega) (hstc_rv1 h0)
    · rw [if_neg hlk] at h
      exact absurd h (fun hh => IterOut.noConfusion hh)

theorem qrIter_conv_spec (ops : FloatOps) (n m : ℕ) (tst1 : ℚ) (k : ℕ)
    (st st' : DState) (h : qrIter ops n m tst1 k st = .conv st') :
    0 ≤ st'.w k ∧ (∀ j, k < j → st'.w j = st.w j) ∧
    (st.rv1 0 = 0 → st'.rv1 0 = 0) := by
  rcases qrIter_eq ops n m tst1 k st with ⟨_, he⟩ | ⟨l, dc, hs, hle, he⟩
  · rw [he] at h
    exact absurd h (fun hh => IterOut.noConfusion hh)
  · rw [he] at h
    by_cases hlk : l ≠ k
    · rw [if_pos hlk] at h
      exact absurd h (fun hh => IterOut.noConfusion hh)
    · rw [if_neg hlk] at h
      injection h with h'
      subst h'
      have hlk' : l = k := not_ne_iff.1 hlk
      subst hlk'
      have hstc_w : ∀ j, l < j →
          (if dc then cancelGo ops m tst1 (l - 1) (rng l (l + 1)) st 0 1
           else st).w j = st.w j := by
        intro j hj
        cases dc
        · rfl
        · show (cancelGo ops m tst1 (l - 1) (rng l (l + 1)) st 0 1).w j = _
          exact cancelGo_w ops m tst1 (l - 1) _ st 0 1 j
            fun i hi => by have := (mem_rng.1 hi).2; omega
      have hstc_rv1 : st.rv1 0 = 0 →
          (if dc then cancelGo ops m tst1 (l - 1) (rng l (l + 1)) st 0 1
           else st).rv1 0 = 0 := by
        intro h0
        cases dc
        · exact h0
        · show (cancelGo ops m tst1 (l - 1) (rng l (l + 1)) st 0 1).rv1 0 = 0
          rw [cancelGo_rv1 ops m tst1 (l - 1) _ st 0 1 0
            fun i hi => by
              have h1 := (mem_rng.1 hi).1
              have h2 := splitSearch_dc_pos hs
              omega]
          exact h0
      refine ⟨convStep_w_k n l _, fun j hj => ?_, fun h0 => ?_⟩
      · rw [convStep_w_ne n l _ j (by omega)]
        exact hstc_w j hj
      · rw [convStep_rv1]
        exact hstc_rv1 h0

theorem qrIter_ne_oob (ops : FloatOps) (n m : ℕ) (tst1 : ℚ) (k : ℕ)
    (st : DState) (h0 : st.rv1 0 = 0) :
    qrIter ops n m tst1 k st ≠ .oob := by
  rcases qrIter_eq ops n m tst1 k st with ⟨hs, _⟩ | ⟨l, dc, hs, hle, he⟩
  · exact absurd hs (splitSearch_ne_none h0 k)
  · rw [he]
    split_ifs <;> exact fun hh => IterOut.noConfusion hh

theorem diagK_succ (ops : FloatOps) (n m : ℕ) (tst1 : ℚ) (k fuel : ℕ)
    (st : DState) :
    diagK ops n m tst1 k (fuel + 1) st =
      (match qrIter ops n m tst1 k st with
       | .oob => Except.error SvdErr.indexOob
       | .conv st' => Except.ok st'
       | .next st' => diagK ops n m tst1 k fuel st') := rfl

theorem diagK_ok_spec (ops : FloatOps) (n m : ℕ) (tst1 : ℚ) (k : ℕ) :
    ∀ (fuel : ℕ) (st st' : DState),
      diagK ops n m tst1 k fuel st = .ok st' →
      0 ≤ st'.w k ∧ (∀ j, k < j → st'.w j = st.w j) ∧
      (st.rv1 0 = 0 → st'.rv1 0 = 0) := by
  intro fuel
  induction fuel with
  | zero => intro st st' h; exact absurd h (fun hh => Except.noConfusion hh)
  | succ fuel ih =>
    intro st st' h
    rw [diagK_succ] at h
    cases hq : qrIter ops n m tst1 k st with
    | oob =>
      rw [hq] at h
      exact absurd h (fun hh => Except.noConfusion hh)
    | conv s =>
      rw [hq] at h
      have hss : s = st' := Except.ok.inj h
      subst hss
      obtain ⟨h1, h2, h3⟩ := qrIter_conv_spec ops n m tst1 k st s hq
      exact ⟨h1, h2, h3⟩
    | next s =>
      rw [hq] at h
      obtain ⟨h1, h2⟩ := qrIter_next_spec ops n m tst1 k st s hq
      obtain ⟨g1, g2, g3⟩ := ih s st' h
      refine ⟨g1, fun j hj => (g2 j hj).trans (h1 j hj), fun h0 => g3 (h2 h0)⟩

theorem diagK_ne_oob (ops : FloatOps) (n m : ℕ) (tst1 : ℚ) (k : ℕ) :
    ∀ (fuel : ℕ) (st : DState), st.rv1 0 = 0 →
      diagK ops n m tst1 k fuel st ≠ .error .indexOob := by
  intro fuel
  induction fuel with
  | zero =>
    intro st _ h
    have := Except.error.inj h
    exact SvdErr.noConfusion this
  | succ fuel ih =>
    intro st h0 h
    rw [diagK_succ] at h
    cases hq : qrIter ops n m tst1 k st with
    | oob => exact qrIter_ne_oob ops n m tst1 k st h0 hq
    | conv s =>
      rw [hq] at h
      exact Except.noConfusion h
    | next s =>
      rw [hq] at h
      exact ih s ((qrIter_next_spec ops n m tst1 k st s hq).2 h0) h

theorem diagK_error_of_runsOver (ops : FloatOps) (n m : ℕ) (tst1 : ℚ)
    (k : ℕ) : ∀ (fuel : ℕ) (st : DState),
      runsOver ops n m tst1 k st fuel = true →
      diagK ops n m tst1 k fuel st = .error .noConvergence := by
  intro fuel
  induction fuel with
  | zero => intro st _; rfl
  | succ fuel ih =>
    intro st hrun
    rw [diagK_succ]
    cases hq : qrIter ops n m tst1 k st with
    | oob =>
      rw [show runsOver ops n m tst1 k st (fuel + 1) =
          (match qrIter ops n m tst1 k st with
           | .next st' => runsOver ops n m tst1 k st' fuel
           | _ => false) from rfl, hq] at hrun
      exact absurd hrun (by simp)
    | conv s =>
      rw [show runsOver ops n m tst1 k st (fuel + 1) =
          (match qrIter ops n m tst1 k st with
           | .next st' => runsOver ops n m tst1 k st' fuel
           | _ => false) from rfl, hq] at hrun
      exact absurd hrun (by simp)
    | next s =>
      rw [show runsOver ops n m tst1 k st (fuel + 1) =
          (match qrIter ops n m tst1 k st with
           | .next st' => runsOver ops n m tst1 k st' fuel
           | _ => false) from rfl, hq] at hrun
      exact ih s hrun

theorem convWithin_of_diagK_ok (ops : FloatOps) (n m : ℕ) (tst1 : ℚ)
    (k : ℕ) : ∀ (fuel : ℕ) (st st' : DState),
      diagK ops n m tst1 k fuel st = .ok st' →
      convWithin ops n m tst1 k st fuel = true := by
  intro fuel
  induction fuel with
  | zero => intro st st' h; exact absurd h (fun hh => Except.noConfusion hh)
  | succ fuel ih =>
    intro st st' h
    rw [diagK_succ] at h
    rw [show convWithin ops n m tst1 k st (fuel + 1) =
        (match qrIter ops n m tst1 k st with
         | .conv _ => true
         | .next st' => convWithin ops n m tst1 k st' fuel
         | .oob => false) from rfl]
    cases hq : qrIter ops n m tst1 k st with
    | oob =>
      rw [hq] at h
      exact absurd h (fun hh => Except.noConfusion hh)
    | conv s => rfl
    | next s =>
      rw [hq] at h
      exact ih s st' h

/-! ### `rv1[0] = 0`: established by phase 1, preserved everywhere -/

theorem house_row_rv1_cases (ops : FloatOps) (n m i : ℕ) (A : Mat)
    (rv1 : Vec) :
    (house_row ops n m i A rv1).2.1 = rv1 ∨
    ∃ g : ℕ → ℚ, (house_row ops n m i A rv1).2.1 =
      (rng (i + 1) n).foldl (fun r k => updV r k (g k)) rv1 := by
  simp only [house_row]
  split_ifs with h1 h2
  · exact Or.inl rfl
  · exact Or.inr ⟨_, rfl⟩
  · exact Or.inl rfl

theorem house_row_rv1_low (ops : FloatOps) (n m i : ℕ) (A : Mat) (rv1 : Vec)
    (j : ℕ) (hj : j < i + 1) :
    (house_row ops n m i A rv1).2.1 j = rv1 j := by
  rcases house_row_rv1_cases ops n m i A rv1 with h | ⟨g, h⟩
  · rw [h]
  · rw [h]
    refine foldl_pres (P := fun r : Vec => r j = rv1 j) ?_ rfl
    intro r k hk hr
    show updV r k (g k) j = rv1 j
    rw [updV_ne _ _ _ (by have := (mem_rng.1 hk).1; omega)]
    exact hr

theorem h1step_rv1_lo (ops : FloatOps) (n m : ℕ) (st : H1St) (i j : ℕ)
    (hj : j < i + 1) :
    (h1step ops n m st i).rv1 j =
      updV st.rv1 i (st.scale * st.g) j := by
  show (house_row ops n m i _ _).2.1 j = _
  exact house_row_rv1_low _ _ _ _ _ _ j hj

theorem phase1_rv1_zero (ops : FloatOps) (n m : ℕ) (A : Mat) (w rv1 : Vec)
    (hn : 1 ≤ n) : (phase1 ops n m A w rv1).rv1 0 = 0 := by
  have hr : List.range n = 0 :: List.range' 1 (n - 1) := by
    rw [List.range_eq_range']
    cases n with
    | zero => omega
    | succ n' =>
      have := List.range'_succ 0 n' 1
      simp only [Nat.add_sub_cancel]
      exact this
  show (List.foldl (h1step ops n m) ⟨A, w, rv1, 0, 0, 0⟩
    (List.range n)).rv1 0 = 0
  rw [hr]
  show (List.foldl (h1step ops n m)
    (h1step ops n m ⟨A, w, rv1, 0, 0, 0⟩ 0) (List.range' 1 (n - 1))).rv1 0 = 0
  have base : (h1step ops n m ⟨A, w, rv1, 0, 0, 0⟩ 0).rv1 0 = 0 := by
    rw [h1step_rv1_lo ops n m _ 0 0 (by omega), updV_self]
    show (0 : ℚ) * 0 = 0
    norm_num
  exact foldl_pres
    (P := fun s : H1St => s.rv1 0 = 0)
    (fun a b hb pa => by
      have hb1 : 1 ≤ b := by
        have := List.mem_range'_1.1 hb
        omega
      show (h1step ops n m a b).rv1 0 = 0
      rw [h1step_rv1_lo ops n m a b 0 (by omega),
        updV_ne _ _ _ (by omega)]
      exact pa)
    base

/-! ### The outer diagonalization loop -/

theorem diagDown_nil (ops : FloatOps) (n m : ℕ) (tst1 : ℚ) (st : DState) :
    diagDown ops n m tst1 [] st = .ok st := rfl

theorem diagDown_cons (ops : FloatOps) (n m : ℕ) (tst1 : ℚ) (k : ℕ)
    (ks : List ℕ) (st : DState) :
    diagDown ops n m tst1 (k :: ks) st =
      diagK ops n m tst1 k SVD_NMAX st >>=
        fun s => diagDown ops n m tst1 ks s := by
  simp [diagDown, List.foldlM_cons]

theorem diagDown_append (ops : FloatOps) (n m : ℕ) (tst1 : ℚ)
    (l1 l2 : List ℕ) (st : DState) :
    diagDown ops n m tst1 (l1 ++ l2) st =
      diagDown ops n m tst1 l1 st >>=
        fun s => diagDown ops n m tst1 l2 s := by
  simp [diagDown, List.foldlM_append]

theorem diagDown_rv1 (ops : FloatOps) (n m : ℕ) (tst1 : ℚ) :
    ∀ (ks : List ℕ) (st st' : DState),
      diagDown ops n m tst1 ks st = .ok st' → st.rv1 0 = 0 →
      st'.rv1 0 = 0 := by
  intro ks
  induction ks with
  | nil =>
    intro st st' h h0
    rw [Except.ok.inj h] at h0
    exact h0
  | cons k rest ih =>
    intro st st' h h0
    rw [diagDown_cons] at h
    cases hd : diagK ops n m tst1 k SVD_NMAX st with
    | error e =>
      rw [hd] at h
      exact absurd h (fun hh => Except.noConfusion hh)
    | ok s1 =>
      rw [hd] at h
      exact ih s1 st' h
        ((diagK_ok_spec ops n m tst1 k SVD_NMAX st s1 hd).2.2 h0)

theorem diagDown_ne_oob (ops : FloatOps) (n m : ℕ) (tst1 : ℚ) :
    ∀ (ks : List ℕ) (st : DState), st.rv1 0 = 0 →
      diagDown ops n m tst1 ks st ≠ .error .indexOob := by
  intro ks
  induction ks with
  | nil =>
    intro st _ h
    exact Except.noConfusion h
  | cons k rest ih =>
    intro st h0 h
    rw [diagDown_cons] at h
    cases hd : diagK ops n m tst1 k SVD_NMAX st with
    | error e =>
      rw [hd] at h
      have he : e = SvdErr.indexOob := Except.error.inj h
      subst he
      exact diagK_ne_oob ops n m tst1 k SVD_NMAX st h0 hd
    | ok s1 =>
      rw [hd] at h
      exact ih s1 ((diagK_ok_spec ops n m tst1 k SVD_NMAX st s1 hd).2.2 h0) h

theorem diagDown_w_high (ops : FloatOps) (n m : ℕ) (tst1 : ℚ) :
    ∀ (ks : List ℕ) (st st' : DState) (j : ℕ),
      (∀ k ∈ ks, k < j) →
      diagDown ops n m tst1 ks st = .ok st' → st'.w j = st.w j := by
  intro ks
  induction ks with
  | nil =>
    intro st st' j _ h
    rw [Except.ok.inj h]
  | cons k rest ih =>
    intro st st' j hj h
    rw [diagDown_cons] at h
    cases hd : diagK ops n m tst1 k SVD_NMAX st with
    | error e =>
      rw [hd] at h
      exact absurd h (fun hh => Except.noConfusion hh)
    | ok s1 =>
      rw [hd] at h
      rw [ih s1 st' j (fun k' hk' => hj k' (List.mem_cons_of_mem _ hk')) h]
      exact (diagK_ok_spec ops n m tst1 k SVD_NMAX st s1 hd).2.1 j
        (hj k (List.mem_cons_self _ _))

theorem diagDown_w_nonneg (ops : FloatOps) (n m : ℕ) (tst1 : ℚ) :
    ∀ (ks : List ℕ), ks.Pairwise (fun a b => b < a) →
      ∀ (st st' : DState), diagDown ops n m tst1 ks st = .ok st' →
      ∀ k ∈ ks, 0 ≤ st'.w k := by
  intro ks
  induction ks with
  | nil => intro _ st st' _ k hk; cases hk
  | cons k rest ih =>
    intro hpw st st' h k' hk'
    rw [diagDown_cons] at h
    cases hd : diagK ops n m tst1 k SVD_NMAX st with
    | error e =>
      rw [hd] at h
      exact absurd h (fun hh => Except.noConfusion hh)
    | ok s1 =>
      rw [hd] at h
      rcases List.mem_cons.1 hk' with rfl | hk''
      · rw [diagDown_w_high ops n m tst1 rest s1 st' k'
          (List.pairwise_cons.1 hpw).1 h]
        exact (diagK_ok_spec ops n m tst1 k' SVD_NMAX st s1 hd).1
      · exact ih (List.pairwise_cons.1 hpw).2 s1 st' h k' hk''

/-! ### C9: after a normal return of `svd`, every `w` entry is
non-negative -/

/-- C9.  If `svd` returns normally, every singular value `w[i]`, `i < n`,
is non-negative: each target index exits its sweep loop only through the
`l == k` branch, which sign-corrects `w[k]`, and later target indices never
write entries above their own index. -/
theorem svd_w_nonneg_after_success (ops : FloatOps) (n m : ℕ) (A V : Mat)
    (w rv1 : Vec) (st' : DState)
    (h : svd ops n m A V w rv1 = .ok st') :
    ∀ i, i < n → 0 ≤ st'.w i := by
  intro i hi
  have h' : diagDown ops n m (preDiag ops n m A V w rv1).1
      ((List.range n).reverse) (preDiag ops n m A V w rv1).2 = .ok st' := h
  have hpw : ((List.range n).reverse).Pairwise (fun a b => b < a) := by
    rw [List.pairwise_reverse]
    exact List.pairwise_lt_range n
  exact diagDown_w_nonneg ops n m _ _ hpw _ _ h' i
    (by rw [List.mem_reverse, List.mem_range]; exact hi)

/-! ### C10: the out-of-bounds read in the splitting search is
unreachable -/

/-- C10.  `rv1[0]` is zero when the diagonalization starts (it is written as
`scale * g = 0 * 0` in the first Householder iteration) and is reset to
zero after every QR sweep, so the splitting search always terminates at
`l = 0` through the `rv1` test: in this total embedding the out-of-bounds
read of `w[l-1]` with `l = 0` (marked `.indexOob`) is unreachable, for every
input and every implementation of `sqrt`/`hypot`. -/
theorem svd_no_out_of_bounds (ops : FloatOps) (n m : ℕ) (A V : Mat)
    (w rv1 : Vec) :
    svd ops n m A V w rv1 ≠ .error .indexOob := by
  rcases Nat.eq_zero_or_pos n with rfl | hn
  · intro h
    exact Except.noConfusion
      (show Except.ok (preDiag ops 0 m A V w rv1).2 =
        Except.error SvdErr.indexOob from h)
  · have h0 : (preDiag ops n m A V w rv1).2.rv1 0 = 0 :=
      phase1_rv1_zero ops n m A w rv1 hn
    exact diagDown_ne_oob ops n m _ _ _ h0

/-! ### C5: the 40-iteration cap and non-convergence -/

theorem range_reverse_split (k n : ℕ) (hk : k < n) :
    (List.range n).reverse =
      (List.range' (k + 1) (n - 1 - k)).reverse ++
        k :: (List.range k).reverse := by
  have h1 : List.range n = List.range (k + 1) ++ List.range' (k + 1) (n - 1 - k) := by
    rw [List.range_eq_range', List.range_eq_range']
    have h := List.range'_append_1 0 (k + 1) (n - 1 - k)
    rw [Nat.zero_add, show n - 1 - k + (k + 1) = n from by omega] at h
    rw [← h]
  rw [h1, List.reverse_append, List.range_succ, List.reverse_append]
  rfl

/-- C5.  Let `stk` be the state with which the diagonalization reaches
target index `k` (`hpre`).  If the sweep loop for `k` would take the
QR-transformation branch `SVD_NMAX = 40` times in a row without the block
collapsing (`runsOver`), then `svd` signals the fatal non-convergence error
and does not return normally; conversely, `svd` returns normally only if
the sweep for `k` converges within the 40-iteration cap (`convWithin`). -/
theorem svd_iteration_cap (ops : FloatOps) (n m : ℕ) (A V : Mat)
    (w rv1 : Vec) (k : ℕ) (stk : DState) (hk : k < n)
    (hpre : diagDown ops n m (preDiag ops n m A V w rv1).1
        ((List.range' (k + 1) (n - 1 - k)).reverse)
        (preDiag ops n m A V w rv1).2 = .ok stk) :
    (runsOver ops n m (preDiag ops n m A V w rv1).1 k stk SVD_NMAX = true →
       svd ops n m A V w rv1 = .error .noConvergence) ∧
    (∀ st', svd ops n m A V w rv1 = .ok st' →
       convWithin ops n m (preDiag ops n m A V w rv1).1 k stk SVD_NMAX
         = true) := by
  have hsvd : svd ops n m A V w rv1 =
      diagK ops n m (preDiag ops n m A V w rv1).1 k SVD_NMAX stk >>=
        fun s => diagDown ops n m (preDiag ops n m A V w rv1).1
          ((List.range k).reverse) s := by
    show diagDown ops n m (preDiag ops n m A V w rv1).1
        ((List.range n).reverse) (preDiag ops n m A V w rv1).2 = _
    rw [range_reverse_split k n hk, diagDown_append, hpre]
    show diagDown ops n m (preDiag ops n m A V w rv1).1
        (k :: (List.range k).reverse) stk = _
    rw [diagDown_cons]
  constructor
  · intro hrun
    rw [hsvd, diagK_error_of_runsOver ops n m _ k SVD_NMAX stk hrun]
    rfl
  · intro st' hok
    rw [hsvd] at hok
    cases hd : diagK ops n m (preDiag ops n m A V w rv1).1 k SVD_NMAX stk with
    | error e =>
      rw [hd] at hok
      exact absurd hok (fun hh => Except.noConfusion hh)
    | ok s1 =>
      exact convWithin_of_diagK_ok ops n m _ k SVD_NMAX stk s1 hd

/-! ### C7: the sign correction on convergence -/

theorem foldl_negcol (kk : ℕ) :
    ∀ (L : List ℕ), L.Nodup → ∀ (V : Mat) (r c : ℕ),
      (L.foldl (fun V j => updM V j kk (-V j kk)) V) r c =
        if r ∈ L ∧ c = kk then -V r c else V r c := by
  intro L
  induction L with
  | nil => intro _ V r c; simp
  | cons j t ih =>
    intro hnd V r c
    obtain ⟨hj, hnd'⟩ := List.nodup_cons.1 hnd
    show (t.foldl _ (updM V j kk (-V j kk))) r c = _
    rw [ih hnd']
    by_cases hc : c = kk
    · subst hc
      by_cases hrt : r ∈ t
      · have hrj : r ≠ j := fun hh => hj (hh ▸ hrt)
        rw [if_pos ⟨hrt, rfl⟩, if_pos ⟨List.mem_cons_of_mem _ hrt, rfl⟩,
          updM_ne _ _ _ _ (fun hh => hrj hh.1)]
      · rw [if_neg (fun hh => hrt hh.1)]
        by_cases hrj : r = j
        · subst hrj
          rw [if_pos ⟨List.mem_cons_self _ _, rfl⟩, updM_self]
        · rw [updM_ne _ _ _ _ (fun hh => hrj hh.1),
            if_neg (fun hh => (List.mem_cons.1 hh.1).elim hrj hrt)]
    · rw [if_neg (fun hh => hc hh.2), if_neg (fun hh => hc hh.2),
        updM_ne _ _ _ _ (fun hh => hc hh.2)]

/-- C7.  When the splitting search finds `l == k` (the block has collapsed),
the iteration takes the convergence branch: after the (possible)
cancellation sweep producing `stc`, if `w[k] < 0` then `w[k]` is replaced
by `-w[k]` and every entry of column `k` of `V` is negated, with everything
else untouched; if `w[k] ≥ 0` the branch changes nothing. -/
theorem svd_converged_sign_fix (ops : FloatOps) (n m : ℕ) (tst1 : ℚ)
    (k : ℕ) (st : DState) (dc : Bool) (stc : DState)
    (hs : splitSearch tst1 st.rv1 st.w k = some (k, dc))
    (hstc : stc =
      if dc then cancelGo ops m tst1 (k - 1) (rng k (k + 1)) st 0 1
      else st) :
    qrIter ops n m tst1 k st = .conv (convStep n k stc) ∧
    (stc.w k < 0 →
      (convStep n k stc).w k = -stc.w k ∧
      (∀ j, j ≠ k → (convStep n k stc).w j = stc.w j) ∧
      (∀ j, j < n → (convStep n k stc).V j k = -stc.V j k) ∧
      (∀ j c, ¬(j < n ∧ c = k) → (convStep n k stc).V j c = stc.V j c) ∧
      (convStep n k stc).A = stc.A ∧
      (convStep n k stc).rv1 = stc.rv1) ∧
    (0 ≤ stc.w k → convStep n k stc = stc) := by
  have hcs : stc.w k < 0 → convStep n k stc =
      { stc with
        w := updV stc.w k (-stc.w k)
        V := (rng 0 n).foldl (fun V j => updM V j k (-V j k)) stc.V } := by
    intro hneg
    unfold convStep
    rw [if_pos hneg]
  refine ⟨?_, ?_, ?_⟩
  · rcases qrIter_eq ops n m tst1 k st with ⟨hs', _⟩ | ⟨l, dc', hs', hle, he⟩
    · rw [hs] at hs'
      exact Option.noConfusion hs'
    · rw [hs] at hs'
      injection hs' with hp
      injection hp with h1 h2
      subst h1
      subst h2
      rw [if_neg (fun hh => hh rfl), ← hstc] at he
      exact he
  · intro hneg
    refine ⟨?_, ?_, ?_, ?_, ?_, ?_⟩
    · rw [hcs hneg]
      exact updV_self _ _ _
    · intro j hj
      rw [hcs hneg]
      exact updV_ne _ _ _ hj
    · intro j hj
      rw [hcs hneg]
      show ((rng 0 n).foldl (fun V j => updM V j k (-V j k)) stc.V) j k = _
      rw [foldl_negcol k _ (rng_nodup 0 n) stc.V j k,
        if_pos ⟨mem_rng.2 ⟨Nat.zero_le _, hj⟩, rfl⟩]
    · intro j c hjc
      rw [hcs hneg]
      show ((rng 0 n).foldl (fun V j => updM V j k (-V j k)) stc.V) j c = _
      rw [foldl_negcol k _ (rng_nodup 0 n) stc.V j c,
        if_neg (fun hh => hjc ⟨(mem_rng.1 hh.1).2, hh.2⟩)]
    · rw [hcs hneg]
    · rw [hcs hneg]
  · intro hpos
    unfold convStep
    rw [if_neg (not_lt.2 hpos)]

/-! ### Witnesses for the diagonalization claims -/

theorem add_abs_cancel (x t : ℚ) : (|x| + t = t) ↔ x = 0 := by
  constructor
  · intro h
    have h' : |x| = 0 := by linarith
    exact abs_eq_zero.1 h'
  · intro h
    rw [h, abs_zero, zero_add]

theorem splitSearch_zero_of (t : ℚ) (rv1 w : Vec) (h0 : rv1 0 = 0) :
    splitSearch t rv1 w 0 = some (0, false) := by
  show (if |rv1 0| + t = t then some (0, false) else none) = _
  rw [h0, abs_zero, zero_add, if_pos rfl]

/-- If the search already stops at `l = k` with no cancellation, the
iteration is the convergence branch.  (Shared helper for the witnesses.) -/
theorem qrIter_conv_of_search (ops : FloatOps) (n m : ℕ) (tst1 : ℚ)
    (k : ℕ) (st : DState)
    (hs : splitSearch tst1 st.rv1 st.w k = some (k, false)) :
    qrIter ops n m tst1 k st = .conv (convStep n k st) := by
  rcases qrIter_eq ops n m tst1 k st with ⟨hs', _⟩ | ⟨l, dc', hs', hle, he⟩
  · rw [hs] at hs'
    exact Option.noConfusion hs'
  · rw [hs] at hs'
    injection hs' with hp
    injection hp with hl hd
    subst hl
    subst hd
    rw [if_neg (fun hh => hh rfl)] at he
    exact he

theorem splitSearch_fix (t : ℚ) (st : DState) (h1 : st.w 0 = 1)
    (h3 : st.rv1 0 = 0) (h4 : st.rv1 1 = 1) :
    splitSearch t st.rv1 st.w 1 = some (0, false) := by
  show (if |st.rv1 1| + t = t then some (1, false)
    else if |st.w 0| + t = t then some (1, true)
    else if |st.rv1 0| + t = t then some (0, false) else none) = _
  rw [h1, h3, h4]
  norm_num [add_abs_cancel]

theorem qrStep_fix (st : DState) (h1 : st.w 0 = 1) (h2 : st.w 1 = 0)
    (h3 : st.rv1 0 = 0) (h4 : st.rv1 1 = 1) :
    (qrStep ops2 2 1 1 0 st).w 0 = 1 ∧ (qrStep ops2 2 1 1 0 st).w 1 = 0 ∧
    (qrStep ops2 2 1 1 0 st).rv1 0 = 0 ∧
    (qrStep ops2 2 1 1 0 st).rv1 1 = 1 := by
  have hr01 : rng 0 1 = [0] := rfl
  refine ⟨?_, ?_, ?_, ?_⟩ <;>
    norm_num [qrStep, qrGo, hr01, h1, h2, h3, h4, updV, copysign, ops2]
  rw [show |(4 : ℚ) / 5| = (4 : ℚ) / 5 from abs_of_pos (by norm_num)]
  norm_num

theorem qrIter_fix (t : ℚ) (st : DState) (h1 : st.w 0 = 1)
    (h2 : st.w 1 = 0) (h3 : st.rv1 0 = 0) (h4 : st.rv1 1 = 1) :
    qrIter ops2 2 1 t 1 st = .next (qrStep ops2 2 1 1 0 st) := by
  unfold qrIter
  rw [splitSearch_fix t st h1 h3 h4]
  rfl

theorem runsOver_fix : ∀ (j : ℕ) (t : ℚ) (st : DState), st.w 0 = 1 →
    st.w 1 = 0 → st.rv1 0 = 0 → st.rv1 1 = 1 →
    runsOver ops2 2 1 t 1 st j = true := by
  intro j
  induction j with
  | zero => intro t st _ _ _ _; rfl
  | succ j ih =>
    intro t st h1 h2 h3 h4
    rw [show runsOver ops2 2 1 t 1 st (j + 1) =
        (match qrIter ops2 2 1 t 1 st with
         | .next st' => runsOver ops2 2 1 t 1 st' j
         | _ => false) from rfl,
      qrIter_fix t st h1 h2 h3 h4]
    obtain ⟨g1, g2, g3, g4⟩ := qrStep_fix st h1 h2 h3 h4
    exact ih t _ g1 g2 g3 g4

theorem preDiag_fix :
    (preDiag ops2 2 1 smpA5 zeroM zeroV zeroV).2.w 0 = 1 ∧
    (preDiag ops2 2 1 smpA5 zeroM zeroV zeroV).2.w 1 = 0 ∧
    (preDiag ops2 2 1 smpA5 zeroM zeroV zeroV).2.rv1 0 = 0 ∧
    (preDiag ops2 2 1 smpA5 zeroM zeroV zeroV).2.rv1 1 = 1 := by
  have hrg : List.range 2 = [0, 1] := rfl
  have r01 : rng 0 1 = [0] := rfl
  have r12 : rng 1 2 = [1] := rfl
  have r11 : rng 1 1 = ([] : List ℕ) := rfl
  refine ⟨?_, ?_, ?_, ?_⟩ <;>
    · show _ = _
      norm_num [preDiag, phase1, hrg, h1step, house_col, house_row, r01,
        r12, r11, sumL, updV, updM, copysign, ops2, smpA5, zeroV]

/-- Witness for C5: on the 1×2 input `[[-1, 1]]` with the pathological
`hypot`, the sweep for `k = 1` never converges, and `svd` signals the
non-convergence error. -/
theorem svd_iteration_cap_witness :
    svd ops2 2 1 smpA5 zeroM zeroV zeroV = .error .noConvergence := by
  obtain ⟨g1, g2, g3, g4⟩ := preDiag_fix
  exact (svd_iteration_cap ops2 2 1 smpA5 zeroM zeroV zeroV 1
      (preDiag ops2 2 1 smpA5 zeroM zeroV zeroV).2 (by norm_num) rfl).1
    (runsOver_fix SVD_NMAX _ _ g1 g2 g3 g4)

theorem svd_sample_ok : svd ops2 1 1 smpA9 zeroM zeroV zeroV =
    .ok (convStep 1 0 (preDiag ops2 1 1 smpA9 zeroM zeroV zeroV).2) := by
  have h0 : (preDiag ops2 1 1 smpA9 zeroM zeroV zeroV).2.rv1 0 = 0 :=
    phase1_rv1_zero ops2 1 1 smpA9 zeroV zeroV (by norm_num)
  have hq := qrIter_conv_of_search ops2 1 1
    (preDiag ops2 1 1 smpA9 zeroM zeroV zeroV).1 0
    (preDiag ops2 1 1 smpA9 zeroM zeroV zeroV).2
    (splitSearch_zero_of _ _ _ h0)
  have hk : diagK ops2 1 1 (preDiag ops2 1 1 smpA9 zeroM zeroV zeroV).1 0
      SVD_NMAX (preDiag ops2 1 1 smpA9 zeroM zeroV zeroV).2 =
      .ok (convStep 1 0 (preDiag ops2 1 1 smpA9 zeroM zeroV zeroV).2) := by
    rw [show (SVD_NMAX : ℕ) = 39 + 1 from rfl, diagK_succ, hq]
  show diagDown ops2 1 1 (preDiag ops2 1 1 smpA9 zeroM zeroV zeroV).1
      ((List.range 1).reverse) (preDiag ops2 1 1 smpA9 zeroM zeroV zeroV).2
      = _
  rw [show (List.range 1).reverse = [0] from rfl, diagDown_cons, hk]
  rfl

/-- Witness for C9: after a successful 1×1 run, the lone singular value is
non-negative. -/
theorem svd_w_nonneg_after_success_witness :
    0 ≤ (convStep 1 0 (preDiag ops2 1 1 smpA9 zeroM zeroV zeroV).2).w 0 :=
  svd_w_nonneg_after_success ops2 1 1 smpA9 zeroM zeroV zeroV _
    svd_sample_ok 0 (by norm_num)

/-- Witness for C7: on a state with `w[0] = -1`, the convergence branch
flips the sign of the converged value. -/
theorem svd_converged_sign_fix_witness :
    (convStep 1 0 smpSt7).w 0 = -smpSt7.w 0 :=
  ((svd_converged_sign_fix ops2 1 1 0 0 smpSt7 false smpSt7
      (splitSearch_zero_of 0 smpSt7.rv1 smpSt7.w (by norm_num [smpSt7, zeroV]))
      rfl).2.1 (by norm_num [smpSt7])).1
